import Mathlib

set_option maxRecDepth 8000

/-!
Shallow embedding of `src/sudoku.js` (a Sudoku puzzle generator/solver).

Boards are lists of 81 characters (digits `'1'`-`'9'` or the blank marker
`'.'`), indexed in row-major order: the source's square name `ROWS[r]+COLS[c]`
(with `SQUARES = _cross("ABCDEFGHI","123456789")`) corresponds to the board
index `9*r + c`, and the source itself keys every candidate map in exactly
this `SQUARES` order, so cells are embedded as natural-number indices `0..80`.

Candidate maps (`squares -> string of candidate digits` in the source) become
`List (List Char)` of length 81.  JavaScript's
`String.prototype.replace(val, "")` removes the first occurrence of `val`,
which is `List.erase`.

The mutually recursive `_assign`/`_eliminate` pair terminates in the source
because every real elimination shrinks the total candidate count; the
embedding makes this explicit with a fuel parameter that decreases at each
nested `_eliminate` level (the loop helpers keep the same fuel).  Top-level
entry points use the fixed fuel `PFUEL`, far above the `2*729+1` bound that
the proofs below show is sufficient for every map reachable from a board.
The depth-first searches are fueled likewise (`SFUEL`).

Randomness (`Math.random` via `_shuffle`) is modelled by an explicit entropy
stream `List Nat` threaded through the generator; `solve` and the search
engine never consume it, mirroring the absence of any `Math.random` call in
their source.
-/

namespace Sudoku

/-- The digit characters, `sudoku.DIGITS = "123456789"` in the source. -/
def DIGITS : List Char := ['1', '2', '3', '4', '5', '6', '7', '8', '9']

/-- The blank-cell marker, `sudoku.BLANK_CHAR = "."`. -/
def BLANK : Char := '.'

/-- `MIN_GIVENS = 17` in the source. -/
def MIN_GIVENS : Nat := 17

/-- `NR_SQUARES = 81` in the source. -/
def NR_SQUARES : Nat := 81

/-- The nine row units, in the order `_get_all_units` pushes them.
Square `ROWS[r]+COLS[c]` is board index `9*r+c`. -/
def rowUnits : List (List Nat) :=
  (List.range 9).map (fun r => (List.range 9).map (fun c => 9 * r + c))

/-- The nine column units, second block of `_get_all_units`. -/
def colUnits : List (List Nat) :=
  (List.range 9).map (fun c => (List.range 9).map (fun r => 9 * r + c))

/-- The nine box units, built like the source's
`_cross(row_squares[rsi], col_squares[csi])` double loop. -/
def boxUnits : List (List Nat) :=
  (List.range 3).flatMap (fun br =>
    (List.range 3).map (fun bc =>
      (List.range 3).flatMap (fun r =>
        (List.range 3).map (fun c => 9 * (3 * br + r) + (3 * bc + c)))))

/-- All 27 units in source order (rows, then columns, then boxes). -/
def UNITS : List (List Nat) := rowUnits ++ colUnits ++ boxUnits

/-- `SQUARE_UNITS_MAP[square]`: the units containing a square, kept in
`UNITS` order exactly as `_get_square_units_map` builds them. -/
def unitsOf (sq : Nat) : List (List Nat) := UNITS.filter (fun u => u.contains sq)

/-- `SQUARE_PEERS_MAP[square]`: peers of a square in first-occurrence order,
as `_get_square_peers_map` pushes any unit-mate not yet present and not the
square itself. -/
def peersOf (sq : Nat) : List Nat :=
  ((unitsOf sq).flatten).foldl
    (fun acc x => if acc.contains x = true ∨ x = sq then acc else acc ++ [x]) []

/-- Candidate maps: the source's `squares -> string of digits` object, keyed
by board index. -/
abbrev CandMap := List (List Char)

/-- Read one cell's candidate string (out-of-range reads give `[]`). -/
def getC (c : CandMap) (sq : Nat) : List Char := c.getD sq []

mutual

/-- `sudoku._eliminate(candidates, square, val)`, fueled.  The no-op check
(`!_in(val, candidates[square])`) precedes the fuel split exactly as it is
the first line of the source. -/
def eliminate (f : Nat) (c : CandMap) (sq : Nat) (v : Char) : Option CandMap :=
  if (getC c sq).contains v = false then some c
  else
    match f with
    | 0 => none
    | g + 1 =>
      let c1 := c.set sq ((getC c sq).erase v)
      if (getC c1 sq).length = 0 then none
      else
        match
          (if (getC c1 sq).length = 1 then
            elimPeers g c1 (peersOf sq) ((getC c1 sq).headD BLANK)
          else some c1) with
        | none => none
        | some c2 => elimUnits g c2 v (unitsOf sq)
termination_by (f, 0, 0)

/-- The `for (const peer of SQUARE_PEERS_MAP[square])` loop inside
`_eliminate` (the naked-single cascade). -/
def elimPeers (f : Nat) (c : CandMap) (ps : List Nat) (v : Char) : Option CandMap :=
  match ps with
  | [] => some c
  | p :: rest =>
    match eliminate f c p v with
    | none => none
    | some c' => elimPeers f c' rest v
termination_by (f, 1, ps.length)

/-- The `for (const unit of SQUARE_UNITS_MAP[square])` loop inside
`_eliminate` (the hidden-single cascade). -/
def elimUnits (f : Nat) (c : CandMap) (v : Char) (us : List (List Nat)) : Option CandMap :=
  match us with
  | [] => some c
  | u :: rest =>
    let places := u.filter (fun s2 => (getC c s2).contains v)
    if places.length = 0 then none
    else if places.length = 1 then
      match assign f c (places.headD 0) v with
      | none => none
      | some c' => elimUnits f c' v rest
    else elimUnits f c v rest
termination_by (f, 4, us.length)

/-- `sudoku._assign(candidates, square, val)`: eliminate every other value
`candidates[square].replace(val, "")` one at a time. -/
def assign (f : Nat) (c : CandMap) (sq : Nat) (v : Char) : Option CandMap :=
  assignGo f c sq ((getC c sq).erase v)
termination_by (f, 3, 0)

/-- The `for (const other_val of other_vals)` loop inside `_assign`. -/
def assignGo (f : Nat) (c : CandMap) (sq : Nat) (os : List Char) : Option CandMap :=
  match os with
  | [] => some c
  | o :: rest =>
    match eliminate f c sq o with
    | none => none
    | some c' => assignGo f c' sq rest
termination_by (f, 2, os.length)

end

/-- Propagation fuel used by all top-level entry points; the proofs show any
fuel above `2 * 729` suffices for maps reachable from a board. -/
def PFUEL : Nat := 2000

/-- Search-depth fuel for the two depth-first searches. -/
def SFUEL : Nat := 100

/-- Validation and top-level failures; each constructor corresponds to one
distinct thrown/returned message of the source (`"Empty board"`,
`"Invalid board size..."`, `"Invalid board character encountered at index
i: c"`, `"Too few givens..."`, `"Failed to generate full solution"`). -/
inductive SErr : Type where
  | emptyBoard : SErr
  | invalidSize : SErr
  | invalidChar (i : Nat) (ch : Char) : SErr
  | tooFewGivens : SErr
  | genFail : SErr
deriving DecidableEq, Repr

/-- A character the validator accepts: a digit or the blank marker. -/
def validChar (ch : Char) : Bool := DIGITS.contains ch || ch = BLANK

/-- The character-scanning loop of `validate_board`, returning the first
offending index/character pair. -/
def findBad (i : Nat) (b : List Char) : Option (Nat × Char) :=
  match b with
  | [] => none
  | ch :: rest => if validChar ch = false then some (i, ch) else findBad (i + 1) rest

/-- `sudoku.validate_board(board)`: `none` means the source returned `true`;
`some e` is the returned reason string.  `!board` is true in JavaScript
exactly for the empty string, which is reported as `"Empty board"` before
the length check. -/
def validate_board (b : List Char) : Option SErr :=
  if b.isEmpty then some .emptyBoard
  else if b.length ≠ NR_SQUARES then some .invalidSize
  else
    match findBad 0 b with
    | some (i, ch) => some (.invalidChar i ch)
    | none => none

/-- The givens-assignment loop of `_get_candidates_map`: walk the squares in
order, `_assign` every non-blank value from the board. -/
def assignGivens (f : Nat) (b : List Char) (c : CandMap) (idxs : List Nat) : Option CandMap :=
  match idxs with
  | [] => some c
  | i :: rest =>
    let val := b.getD i BLANK
    if DIGITS.contains val then
      match assign f c i val with
      | none => none
      | some c' => assignGivens f b c' rest
    else assignGivens f b c rest

/-- `sudoku._get_candidates_map(board)`: validate (throwing on failure),
start every square at the full digit string, and assign all givens;
`ok none` is the source's `return false`. -/
def get_candidates_map (b : List Char) : Except SErr (Option CandMap) :=
  match validate_board b with
  | some e => .error e
  | none => .ok (assignGivens PFUEL b (List.replicate NR_SQUARES DIGITS) (List.range NR_SQUARES))

/-- The `max_nr_candidates` computation of `_search`: fold over the squares,
updating whenever a strictly larger candidate count is seen. -/
def maxLen (c : CandMap) : Nat :=
  (List.range NR_SQUARES).foldl
    (fun m sq => if (getC c sq).length > m then (getC c sq).length else m) 0

/-- The minimum-remaining-values square choice shared verbatim by `_search`
(`nr_candidates < min_nr_candidates && nr_candidates > 1`) and
`_count_solutions` (`l > 1 && l < min_len`): both scan the squares in order
with a strict-improvement update starting from 10/null. -/
def chooseMin (c : CandMap) : Option Nat :=
  ((List.range NR_SQUARES).foldl
    (fun acc sq =>
      if (getC c sq).length < acc.1 ∧ (getC c sq).length > 1
      then ((getC c sq).length, some sq) else acc)
    (10, none)).2

/-- `sudoku._search(candidates, reverse)`, fueled on recursion depth.  It
takes an `Option` because the source is routinely handed the `false` result
of a failed `_assign` and bails out on it first.  The candidate-value loop
(deep-copy, `_assign`, recurse, return the first success, `false` when the
loop ends) is exactly `List.findSome?` over the candidates, reversed when
`reverse` is requested. -/
def search : Nat → Option CandMap → Bool → Option CandMap
  | _, none, _ => none
  | 0, some _, _ => none
  | g + 1, some c, rev =>
    if maxLen c = 1 then some c
    else
      match chooseMin c with
      | none => none
      | some sq =>
        (if rev then (getC c sq).reverse else getC c sq).findSome?
          (fun v => search g (assign PFUEL c sq v) rev)

/-- Render a solved candidate map as the source's
`SQUARES.map((sq) => result[sq]).join("")`. -/
def renderMap (m : CandMap) : List Char :=
  ((List.range NR_SQUARES).map (fun sq => getC m sq)).flatten

/-- `sudoku.solve(board, reverse)`: validate (throw), throw `TooFewGivens`
below 17 digit cells, build the candidate map, search, render or return
`false` (modelled as `ok none`). -/
def solve (b : List Char) (rev : Bool) : Except SErr (Option (List Char)) :=
  match validate_board b with
  | some e => .error e
  | none =>
    if (b.filter (fun ch => DIGITS.contains ch)).length < MIN_GIVENS then
      .error .tooFewGivens
    else
      match get_candidates_map b with
      | .error e => .error e
      | .ok copt =>
        match search SFUEL copt rev with
        | some m => .ok (some (renderMap m))
        | none => .ok none

/-- The `search_count` closure of `_count_solutions`: the running `count` is
threaded explicitly; an empty candidate set returns the count unchanged, a
fully-singleton map increments it, otherwise branch on the
minimum-candidates square.  The `for (const ch of choices)` loop, with its
`count >= limit` early abort at the top of each iteration, is the
`List.foldl` over the chosen square's candidates threading the count. -/
def searchCount : Nat → CandMap → Nat → Nat → Nat
  | 0, _, cnt, _ => cnt
  | g + 1, c, cnt, lim =>
    if ((List.range NR_SQUARES).any (fun sq => (getC c sq).length = 0)) = true then cnt
    else if ((List.range NR_SQUARES).all (fun sq => (getC c sq).length = 1)) = true then
      cnt + 1
    else
      match chooseMin c with
      | none => cnt
      | some sq =>
        (getC c sq).foldl
          (fun cnt2 v =>
            if lim ≤ cnt2 then cnt2
            else
              match assign PFUEL c sq v with
              | none => cnt2
              | some c2 => searchCount g c2 cnt2 lim) cnt

/-- `sudoku._count_solutions(board, limit)`: validate (throw), build the
candidate map (`0` solutions if it already contradicts), and run the
counting search. -/
def count_solutions (b : List Char) (lim : Nat) : Except SErr Nat :=
  match validate_board b with
  | some e => .error e
  | none =>
    match get_candidates_map b with
    | .error e => .error e
    | .ok none => .ok 0
    | .ok (some c) => .ok (searchCount SFUEL c 0 lim)

/-- `sudoku._has_unique_solution(board)` as used inside `generate`'s
`try { ... } catch { uniqueOk = false }`: a thrown validation error counts
as not unique. -/
def has_unique_solution (b : List Char) : Bool :=
  match count_solutions b 2 with
  | .ok n => n = 1
  | .error _ => false

/-! ### Randomness and the generator -/

/-- Entropy stream: each `Math.random()` draw is one consumed number. -/
abbrev Rng := List Nat

/-- One Fisher-Yates swap `arr[i] <-> arr[j]` via `set`. -/
def swapL {α : Type} (l : List α) (i j : Nat) (d : α) : List α :=
  let a := l.getD i d
  let b := l.getD j d
  (l.set i b).set j a

/-- The Fisher-Yates loop of `_shuffle`, counting `i` down; the next entropy
number reduced `mod (i+1)` models `Math.floor(Math.random() * (i + 1))`. -/
def shuffleGo {α : Type} [Inhabited α] (arr : List α) (i : Nat) (rng : Rng) :
    List α × Rng :=
  match i with
  | 0 => (arr, rng)
  | j + 1 =>
    let k := rng.headD 0 % (j + 2)
    shuffleGo (swapL arr (j + 1) k default) j rng.tail

/-- `sudoku._shuffle(seq)`. -/
def shuffle {α : Type} [Inhabited α] (l : List α) (rng : Rng) : List α × Rng :=
  shuffleGo l (l.length - 1) rng

/-- The `canPlace(idx, digit)` peer-conflict check of
`_generate_full_solution`. -/
def canPlace (grid : List Char) (idx : Nat) (d : Char) : Bool :=
  (peersOf idx).all (fun p => grid.getD p BLANK ≠ d)

mutual

/-- The `backtrack(pos)` recursion of `_generate_full_solution`, walking the
shuffled cell order and threading the entropy stream. -/
def backtrackGo (order : List Nat) (grid : List Char) (rng : Rng) :
    Option (List Char) × Rng :=
  match order with
  | [] => (some grid, rng)
  | idx :: rest =>
    if grid.getD idx BLANK ≠ BLANK then backtrackGo rest grid rng
    else
      let p := shuffle DIGITS rng
      tryDigits p.1 idx rest grid p.2
termination_by (order.length, 1, 0)

/-- The digit loop inside `backtrack`: place, recurse, undo on failure. -/
def tryDigits (ds : List Char) (idx : Nat) (rest : List Nat) (grid : List Char)
    (rng : Rng) : Option (List Char) × Rng :=
  match ds with
  | [] => (none, rng)
  | d :: more =>
    if canPlace grid idx d then
      match backtrackGo rest (grid.set idx d) rng with
      | (some g, rng') => (some g, rng')
      | (none, rng') => tryDigits more idx rest grid rng'
    else tryDigits more idx rest grid rng
termination_by (rest.length + 1, 0, ds.length)

end

/-- `sudoku._generate_full_solution()`: shuffle the 81 cell indices and
backtrack-fill a blank grid. -/
def generate_full_solution (rng : Rng) : Option (List Char) × Rng :=
  let p := shuffle (List.range NR_SQUARES) rng
  backtrackGo p.1 (List.replicate NR_SQUARES BLANK) p.2

/-- The difficulty argument of `generate`: a tier name, a raw number, or
`undefined`. -/
inductive Difficulty : Type where
  | tier (s : String) : Difficulty
  | num (n : Int) : Difficulty
  | undef : Difficulty

/-- The `DIFFICULTY` tier table. -/
def tierGivens (s : String) : Option Int :=
  if s = "easy" then some 62
  else if s = "medium" then some 52
  else if s = "expert" then some 42
  else if s = "master" then some 32
  else if s = "extreme" then some 22
  else none

/-- `sudoku._force_range(nr, max, min)` on the integers `generate` feeds it
(`min` is always 17 there, and `nr || 0` is the identity on integers). -/
def force_range (nr mx mn : Int) : Int :=
  if nr < mn then mn else if nr > mx then mx else nr

/-- The difficulty-to-target computation at the top of `generate`:
tier-name/`undefined` lookup with `DIFFICULTY.easy` fallback, then
`_force_range(difficulty, NR_SQUARES + 1, MIN_GIVENS)`. -/
def generateTarget (d : Difficulty) : Int :=
  let n : Int :=
    match d with
    | .num n => n
    | .tier s => (tierGivens s).getD 62
    | .undef => 62
  force_range n ((NR_SQUARES : Int) + 1) (MIN_GIVENS : Int)

/-- `puzzle.filter((ch) => ch !== BLANK_CHAR).length`. -/
def countGivens (p : List Char) : Nat := (p.filter (fun ch => ch ≠ BLANK)).length

/-- The clue-removal loop of `generate`: stop at the target, tentatively
blank each index, keep the removal only if uniqueness (when requested)
survives.  The `logicallySolvable` probe of the source is computed but has
no effect on the state or control flow (its `if` body is empty), so it is
omitted. -/
def removalLoop (idxs : List Nat) (p : List Char) (g : Nat) (tgt : Int)
    (uniq : Bool) : List Char :=
  match idxs with
  | [] => p
  | idx :: rest =>
    if (g : Int) ≤ tgt then p
    else
      let cand := p.set idx BLANK
      let uOk := if uniq then has_unique_solution cand else true
      if uOk then removalLoop rest cand (g - 1) tgt uniq
      else removalLoop rest p g tgt uniq

/-- The fallback masking loop of `generate` (step 4): blank random cells of
the full solution down to the target with no uniqueness check. -/
def fallbackGo (idxs : List Nat) (p : List Char) (g : Nat) (tgt : Int) : List Char :=
  match idxs with
  | [] => p
  | idx :: rest =>
    if (g : Int) ≤ tgt then p
    else fallbackGo rest (p.set idx BLANK) (g - 1) tgt

/-- `sudoku.generate(difficulty, unique)`: full solution, removal loop,
final solvability check with the masking fallback.  A throw anywhere
(including the final `solve` call, which `generate` does not catch)
propagates as `.error`. -/
def generate (rng : Rng) (d : Difficulty) (uniq : Bool) : Except SErr (List Char) :=
  let tgt := generateTarget d
  match generate_full_solution rng with
  | (none, _) => .error .genFail
  | (some solution, rng2) =>
    let p := shuffle (List.range NR_SQUARES) rng2
    let puzzle := removalLoop p.1 solution (countGivens solution) tgt uniq
    match solve puzzle false with
    | .error e => .error e
    | .ok (some _) => .ok puzzle
    | .ok none =>
      let q := shuffle (List.range NR_SQUARES) p.2
      .ok (fallbackGo q.1 solution (countGivens solution) tgt)

/-! ### Conversions -/

/-- The character loop of `board_string_to_grid`: push each character onto
the current row, emitting the row at every index `i` with `i % 9 == 8`
(a trailing partial row is dropped, as in the source). -/
def stringToGridGo (i : Nat) (rest curRow : List Char) (rows : List (List Char)) :
    List (List Char) :=
  match rest with
  | [] => rows
  | ch :: more =>
    let cur' := curRow ++ [ch]
    if i % 9 = 8 then stringToGridGo (i + 1) more [] (rows ++ [cur'])
    else stringToGridGo (i + 1) more cur' rows

/-- `sudoku.board_string_to_grid(board_string)`. -/
def board_string_to_grid (b : List Char) : List (List Char) :=
  stringToGridGo 0 b [] []

/-- `sudoku.board_grid_to_string(board_grid)`: read `board_grid[r][c]` for
`r, c` in `0..8` (out-of-range reads default, unreachable on 9x9 grids). -/
def board_grid_to_string (g : List (List Char)) : List Char :=
  ((List.range 9).map (fun r =>
    (List.range 9).map (fun c => (g.getD r []).getD c BLANK))).flatten

/-- `solve` with the program state's entropy stream made explicit: the
source of `solve`/`_search` contains no `Math.random` call, so the stream
is returned untouched. -/
def solveR (rng : Rng) (b : List Char) (rev : Bool) :
    (Except SErr (Option (List Char))) × Rng :=
  (solve b rev, rng)


/-! ### Basic facts about candidate-map access -/

theorem getC_set_eq (c : CandMap) {sq : Nat} (h : sq < c.length) (x : List Char) :
    getC (c.set sq x) sq = x := by
  induction c generalizing sq with
  | nil => simp at h
  | cons y t ih =>
    cases sq with
    | zero => rfl
    | succ n => exact ih (by simpa using h)

theorem getC_set_ne (c : CandMap) {sq i : Nat} (h : sq ≠ i) (x : List Char) :
    getC (c.set sq x) i = getC c i := by
  induction c generalizing sq i with
  | nil => rfl
  | cons y t ih =>
    cases sq with
    | zero =>
      cases i with
      | zero => exact absurd rfl h
      | succ m => rfl
    | succ n =>
      cases i with
      | zero => rfl
      | succ m => exact ih (show n ≠ m by omega)

theorem set_eq_of_ge (c : CandMap) {sq : Nat} (h : c.length ≤ sq) (x : List Char) :
    c.set sq x = c := by
  induction c generalizing sq with
  | nil => rfl
  | cons y t ih =>
    cases sq with
    | zero => simp at h
    | succ n => simpa using ih (by simpa using h) 

theorem lt_length_of_getC_ne_nil {c : CandMap} {sq : Nat} (h : getC c sq ≠ []) :
    sq < c.length := by
  by_contra hge
  exact h (List.getD_eq_default _ _ (by omega))

/-- Total number of candidate entries in a map. -/
def sizeC (c : CandMap) : Nat := (c.map List.length).sum

theorem sizeC_eq_range (c : CandMap) :
    sizeC c = ((List.range c.length).map (fun i => (getC c i).length)).sum := by
  induction c with
  | nil => rfl
  | cons y t ih =>
    have hr : (List.range (t.length + 1)) = 0 :: (List.range t.length).map (· + 1) :=
      List.range_succ_eq_map t.length
    simp only [sizeC, List.map_cons, List.sum_cons, List.length_cons, hr,
      List.map_map]
    have : ((List.range t.length).map ((fun i => (getC (y :: t) i).length) ∘ (· + 1))).sum
        = ((List.range t.length).map (fun i => (getC t i).length)).sum := by
      congr 1
    rw [this]
    simpa [getC] using congrArg (fun n => y.length + n) ih.symm |>.symm

/-- The cellwise refinement relation every propagation step preserves:
same shape, cellwise sublists, and no nonempty cell becomes empty. -/
def Step (c' c : CandMap) : Prop :=
  c'.length = c.length ∧ (∀ i, List.Sublist (getC c' i) (getC c i)) ∧
    (∀ i, getC c i ≠ [] → getC c' i ≠ [])

theorem Step.refl (c : CandMap) : Step c c :=
  ⟨Eq.refl _, fun _ => List.Sublist.refl _, fun _ h => h⟩

theorem Step.trans {c3 c2 c1 : CandMap} (h2 : Step c3 c2) (h1 : Step c2 c1) :
    Step c3 c1 :=
  ⟨h2.1.trans h1.1, fun i => (h2.2.1 i).trans (h1.2.1 i),
    fun i h => h2.2.2 i (h1.2.2 i h)⟩

theorem sizeC_le_of_step {c' c : CandMap} (h : Step c' c) : sizeC c' ≤ sizeC c := by
  rw [sizeC_eq_range, sizeC_eq_range, h.1]
  exact List.sum_le_sum (fun i _ => (h.2.1 i).length_le)

theorem step_set_erase {c : CandMap} {sq : Nat} {v : Char}
    (hlt : sq < c.length) (hne : (getC c sq).erase v ≠ []) :
    Step (c.set sq ((getC c sq).erase v)) c := by
  refine ⟨List.length_set c sq _, fun i => ?_, fun i h => ?_⟩
  · by_cases hi : sq = i
    · subst hi; rw [getC_set_eq c hlt]; exact List.erase_sublist v _
    · rw [getC_set_ne c hi]
  · by_cases hi : sq = i
    · subst hi; rw [getC_set_eq c hlt]; exact hne
    · rw [getC_set_ne c hi]; exact h

theorem contains_false_iff {l : List Char} {v : Char} : l.contains v = false ↔ v ∉ l := by
  simp

theorem not_contains_false_iff {l : List Char} {v : Char} :
    ¬ l.contains v = false ↔ v ∈ l := by
  simp

theorem elimPeers_nil (f : Nat) (c : CandMap) (v : Char) : elimPeers f c [] v = some c := by
  rw [elimPeers.eq_def]

theorem elimPeers_cons (f : Nat) (c : CandMap) (p : Nat) (rest : List Nat) (v : Char) :
    elimPeers f c (p :: rest) v =
      match eliminate f c p v with
      | none => none
      | some c2 => elimPeers f c2 rest v := by
  rw [elimPeers.eq_def]

theorem assignGo_nil (f : Nat) (c : CandMap) (sq : Nat) : assignGo f c sq [] = some c := by
  rw [assignGo.eq_def]

theorem assignGo_cons (f : Nat) (c : CandMap) (sq : Nat) (o : Char) (rest : List Char) :
    assignGo f c sq (o :: rest) =
      match eliminate f c sq o with
      | none => none
      | some c2 => assignGo f c2 sq rest := by
  rw [assignGo.eq_def]

theorem elimUnits_nil (f : Nat) (c : CandMap) (v : Char) : elimUnits f c v [] = some c := by
  rw [elimUnits.eq_def]

theorem elimUnits_cons (f : Nat) (c : CandMap) (v : Char) (u : List Nat)
    (rest : List (List Nat)) :
    elimUnits f c v (u :: rest) =
      (let places := u.filter (fun s2 => (getC c s2).contains v)
      if places.length = 0 then none
      else if places.length = 1 then
        match assign f c (places.headD 0) v with
        | none => none
        | some c2 => elimUnits f c2 v rest
      else elimUnits f c v rest) := by
  rw [elimUnits.eq_def]

theorem assign_eq (f : Nat) (c : CandMap) (sq : Nat) (v : Char) :
    assign f c sq v = assignGo f c sq ((getC c sq).erase v) := by
  rw [assign.eq_def]

/-- Every propagation operation, at every fuel, only ever refines the
candidate map (cellwise sublists, shape preserved, nonempty cells stay
nonempty). -/
theorem step_core : ∀ f : Nat,
    (∀ c sq v c', eliminate f c sq v = some c' → Step c' c) ∧
    (∀ c ps v c', elimPeers f c ps v = some c' → Step c' c) ∧
    (∀ c v us c', elimUnits f c v us = some c' → Step c' c) ∧
    (∀ c sq v c', assign f c sq v = some c' → Step c' c) ∧
    (∀ c sq os c', assignGo f c sq os = some c' → Step c' c) := by
  intro f
  induction f using Nat.strong_induction_on with
  | _ f IH =>
  have hE : ∀ c sq v c', eliminate f c sq v = some c' → Step c' c := by
    intro c sq v c' h
    rw [eliminate.eq_def] at h
    by_cases hc : (getC c sq).contains v = false
    · rw [if_pos hc] at h
      cases h
      exact Step.refl c
    · rw [if_neg hc] at h
      have hv : v ∈ getC c sq := not_contains_false_iff.mp hc
      have hlt : sq < c.length := lt_length_of_getC_ne_nil (List.ne_nil_of_mem hv)
      cases f with
      | zero => exact absurd h (by simp)
      | succ g =>
        simp only [] at h
        set c1 := c.set sq ((getC c sq).erase v) with hc1
        have hgc1 : getC c1 sq = (getC c sq).erase v := getC_set_eq c hlt _
        by_cases h0 : (getC c1 sq).length = 0
        · rw [if_pos h0] at h; exact absurd h (by simp)
        · rw [if_neg h0] at h
          have hstep1 : Step c1 c := by
            refine step_set_erase hlt ?_
            intro hnil
            exact h0 (by rw [hgc1, hnil]; rfl)
          cases hs : (if (getC c1 sq).length = 1 then
              elimPeers g c1 (peersOf sq) ((getC c1 sq).headD BLANK)
            else some c1) with
          | none => rw [hs] at h; exact absurd h (by simp)
          | some c2 =>
            rw [hs] at h
            simp only [] at h
            have hstep2 : Step c2 c1 := by
              by_cases h1 : (getC c1 sq).length = 1
              · rw [if_pos h1] at hs
                exact (IH g (Nat.lt_succ_self g)).2.1 c1 (peersOf sq) _ c2 hs
              · rw [if_neg h1] at hs
                cases hs
                exact Step.refl c1
            have hstep3 : Step c' c2 :=
              (IH g (Nat.lt_succ_self g)).2.2.1 c2 v (unitsOf sq) c' h
            exact (hstep3.trans hstep2).trans hstep1
  have hP : ∀ ps c v c', elimPeers f c ps v = some c' → Step c' c := by
    intro ps
    induction ps with
    | nil =>
      intro c v c' h
      rw [elimPeers_nil] at h
      cases h
      exact Step.refl c
    | cons p rest ih =>
      intro c v c' h
      rw [elimPeers_cons] at h
      cases he : eliminate f c p v with
      | none => simp only [he] at h; exact Option.noConfusion h
      | some cm =>
        simp only [he] at h
        exact (ih cm v c' h).trans (hE c p v cm he)
  have hG : ∀ os c sq c', assignGo f c sq os = some c' → Step c' c := by
    intro os
    induction os with
    | nil =>
      intro c sq c' h
      rw [assignGo_nil] at h
      cases h
      exact Step.refl c
    | cons o rest ih =>
      intro c sq c' h
      rw [assignGo_cons] at h
      cases he : eliminate f c sq o with
      | none => simp only [he] at h; exact Option.noConfusion h
      | some cm =>
        simp only [he] at h
        exact (ih cm sq c' h).trans (hE c sq o cm he)
  have hA : ∀ c sq v c', assign f c sq v = some c' → Step c' c := by
    intro c sq v c' h
    rw [assign_eq] at h
    exact hG _ c sq c' h
  have hU : ∀ us c v c', elimUnits f c v us = some c' → Step c' c := by
    intro us
    induction us with
    | nil =>
      intro c v c' h
      rw [elimUnits_nil] at h
      cases h
      exact Step.refl c
    | cons u rest ih =>
      intro c v c' h
      rw [elimUnits_cons] at h
      by_cases hz : (u.filter (fun s2 => (getC c s2).contains v)).length = 0
      · rw [if_pos hz] at h; exact absurd h (by simp)
      · rw [if_neg hz] at h
        by_cases h1 : (u.filter (fun s2 => (getC c s2).contains v)).length = 1
        · rw [if_pos h1] at h
          cases ha : assign f c ((u.filter (fun s2 => (getC c s2).contains v)).headD 0) v with
          | none => simp only [ha] at h; exact Option.noConfusion h
          | some cm =>
            simp only [ha] at h
            exact (ih cm v c' h).trans (hA c _ v cm ha)
        · rw [if_neg h1] at h
          exact ih c v c' h
  exact ⟨hE, fun c ps v c' => hP ps c v c', fun c v us c' => hU us c v c',
    hA, fun c sq os c' => hG os c sq c'⟩

/-! ### The effect of `_eliminate` and `_assign` on the target square -/

/-- `_eliminate` is a no-op when the value is already absent (C6). -/
theorem eliminate_no_op {f : Nat} {c : CandMap} {sq : Nat} {v : Char}
    (h : v ∉ getC c sq) : eliminate f c sq v = some c := by
  rw [eliminate.eq_def, if_pos (contains_false_iff.mpr h)]

/-- A successful `_eliminate` either did nothing (value absent) or removed
one occurrence at the square and possibly cascaded further. -/
theorem eliminate_sq_cases {f : Nat} {c : CandMap} {sq : Nat} {v : Char} {c' : CandMap}
    (h : eliminate f c sq v = some c') :
    (v ∉ getC c sq ∧ c' = c) ∨
      (v ∈ getC c sq ∧ List.Sublist (getC c' sq) ((getC c sq).erase v)) := by
  rw [eliminate.eq_def] at h
  by_cases hc : (getC c sq).contains v = false
  · rw [if_pos hc] at h
    cases h
    exact Or.inl ⟨contains_false_iff.mp hc, rfl⟩
  · rw [if_neg hc] at h
    have hv : v ∈ getC c sq := not_contains_false_iff.mp hc
    have hlt : sq < c.length := lt_length_of_getC_ne_nil (List.ne_nil_of_mem hv)
    refine Or.inr ⟨hv, ?_⟩
    cases f with
    | zero => exact absurd h (by simp)
    | succ g =>
      simp only [] at h
      have hgc1 : getC (c.set sq ((getC c sq).erase v)) sq = (getC c sq).erase v :=
        getC_set_eq c hlt _
      by_cases h0 : (getC (c.set sq ((getC c sq).erase v)) sq).length = 0
      · rw [if_pos h0] at h; exact absurd h (by simp)
      · rw [if_neg h0] at h
        cases hs : (if (getC (c.set sq ((getC c sq).erase v)) sq).length = 1 then
            elimPeers g (c.set sq ((getC c sq).erase v)) (peersOf sq)
              ((getC (c.set sq ((getC c sq).erase v)) sq).headD BLANK)
          else some (c.set sq ((getC c sq).erase v))) with
        | none => rw [hs] at h; exact absurd h (by simp)
        | some c2 =>
          rw [hs] at h
          simp only [] at h
          have hstep2 : Step c2 (c.set sq ((getC c sq).erase v)) := by
            by_cases h1 : (getC (c.set sq ((getC c sq).erase v)) sq).length = 1
            · rw [if_pos h1] at hs
              exact (step_core g).2.1 _ _ _ _ hs
            · rw [if_neg h1] at hs
              cases hs
              exact Step.refl _
          have hstep3 : Step c' c2 := (step_core g).2.2.1 _ _ _ _ h
          have := (hstep3.trans hstep2).2.1 sq
          rwa [hgc1] at this

theorem sublist_erase_of_not_mem {l X : List Char} {v : Char}
    (h : List.Sublist l X) (hv : v ∉ l) : List.Sublist l (X.erase v) := by
  induction h with
  | slnil => exact List.nil_sublist _
  | cons a h ih =>
    rw [List.erase_cons]
    by_cases ha : a = v
    · rw [if_pos (by simp [ha])]
      exact h
    · rw [if_neg (by simp [ha])]
      exact (ih hv).cons a
  | cons₂ a h ih =>
    have hav : a ≠ v := fun hh => hv (hh ▸ List.mem_cons_self a _)
    rw [List.erase_cons, if_neg (by simp [hav])]
    exact (ih (fun hm => hv (List.mem_cons_of_mem a hm))).cons₂ a

theorem foldl_erase_mono {l1 l2 : List Char} (h : List.Sublist l1 l2) (vs : List Char) :
    List.Sublist (vs.foldl List.erase l1) (vs.foldl List.erase l2) := by
  induction vs generalizing l1 l2 with
  | nil => exact h
  | cons v rest ih => exact ih (h.erase v)

/-- After a successful `_assign` loop, the target square's candidates are a
sublist of the original string with each listed other-value erased once. -/
theorem assignGo_sq_sublist : ∀ (os : List Char) (f : Nat) (c : CandMap) (sq : Nat)
    (c' : CandMap), assignGo f c sq os = some c' →
    List.Sublist (getC c' sq) (os.foldl List.erase (getC c sq)) := by
  intro os
  induction os with
  | nil =>
    intro f c sq c' h
    rw [assignGo_nil] at h
    cases h
    exact List.Sublist.refl _
  | cons o rest ih =>
    intro f c sq c' h
    rw [assignGo_cons] at h
    cases he : eliminate f c sq o with
    | none => simp only [he] at h; exact Option.noConfusion h
    | some cm =>
      simp only [he] at h
      have hrest := ih f cm sq c' h
      rcases eliminate_sq_cases he with ⟨hno, rfl⟩ | ⟨hyes, hsub⟩
      · simpa [List.foldl_cons, List.erase_of_not_mem hno] using hrest
      · exact hrest.trans (by simpa [List.foldl_cons] using foldl_erase_mono hsub rest)

theorem sublist_erase_cons {v : Char} {vs l : List Char}
    (h : List.Sublist (v :: vs) l) : List.Sublist vs (l.erase v) := by
  induction l with
  | nil => exact absurd (h.length_le) (by simp)
  | cons x t ih =>
    cases h with
    | cons _ h' =>
      rw [List.erase_cons]
      by_cases hx : x = v
      · rw [if_pos (by simp [hx])]
        exact (List.sublist_cons_self v vs).trans h'
      · rw [if_neg (by simp [hx])]
        exact (ih h').cons x
    | cons₂ _ h' =>
      rw [List.erase_cons_head]
      exact h'

theorem count_foldl_erase : ∀ (vs l : List Char), List.Sublist vs l → ∀ a : Char,
    (vs.foldl List.erase l).count a = l.count a - vs.count a := by
  intro vs
  induction vs with
  | nil => intro l _ a; simp
  | cons v rest ih =>
    intro l h a
    have h1 := ih (l.erase v) (sublist_erase_cons h) a
    rw [List.foldl_cons, h1, List.count_erase, List.count_cons]
    by_cases hav : a = v
    · subst hav
      simp only [beq_self_eq_true, if_true, Nat.sub_sub]
      omega
    · have hb1 : (v == a) = false := by simp [Ne.symm hav]
      have hb2 : (a == v) = false := by simp [hav]
      simp [hb1, hb2]

/-- Erasing, one occurrence at a time, everything that
`candidates[square].replace(val, "")` lists leaves exactly one copy of `val`
(or nothing when it was absent to begin with). -/
theorem foldl_erase_self (l : List Char) (d : Char) :
    ((l.erase d).foldl List.erase l) = if d ∈ l then [d] else [] := by
  have hcount : ∀ a : Char, (((l.erase d).foldl List.erase l)).count a
      = l.count a - (l.erase d).count a :=
    count_foldl_erase _ l (List.erase_sublist d l)
  by_cases hd : d ∈ l
  · rw [if_pos hd]
    have hall : ∀ a ∈ ((l.erase d).foldl List.erase l), a = d := by
      intro a ha
      by_contra hne
      have h0 : (l.erase d).count a = l.count a := by
        rw [List.count_erase]
        simp [show (d == a) = false by simp [Ne.symm hne]]
      have : (((l.erase d).foldl List.erase l)).count a = 0 := by
        rw [hcount a, h0]; omega
      exact absurd (List.count_pos_iff.mpr ha) (by omega)
    have hrep := List.eq_replicate_of_mem hall
    have hcd : (((l.erase d).foldl List.erase l)).count d = 1 := by
      rw [hcount d, List.count_erase]
      have : 0 < l.count d := List.count_pos_iff.mpr hd
      simp only [beq_self_eq_true, if_true]
      omega
    rw [hrep] at hcd ⊢
    rw [List.count_replicate] at hcd
    simp only [beq_self_eq_true, if_true] at hcd
    rw [hcd]
    rfl
  · rw [if_neg hd]
    have hzero : ∀ a : Char, (((l.erase d).foldl List.erase l)).count a = 0 := by
      intro a
      rw [hcount a]
      by_cases hav : a = d
      · subst hav
        have : l.count a = 0 := List.count_eq_zero.mpr hd
        omega
      · have : (l.erase d).count a = l.count a := by
          rw [List.count_erase]
          simp [show (d == a) = false by simp [Ne.symm hav]]
        omega
    rcases List.eq_nil_or_concat (((l.erase d).foldl List.erase l)) with hnil | ⟨ys, y, hy⟩
    · exact hnil
    · exfalso
      have hmem : y ∈ ((l.erase d).foldl List.erase l) := by rw [hy]; simp
      have hpos := List.count_pos_iff.mpr hmem
      rw [hzero y] at hpos
      exact absurd hpos (by omega)

theorem sublist_singleton_cases {l : List Char} {d : Char}
    (h : List.Sublist l [d]) : l = [] ∨ l = [d] := by
  cases h with
  | cons _ h' => exact Or.inl (List.sublist_nil.mp h')
  | cons₂ _ h' => exact Or.inr (by rw [List.sublist_nil.mp h'])

theorem assign_sets_singleton {f : Nat} {c : CandMap} {sq : Nat} {d : Char} {m : CandMap}
    (hne : getC c sq ≠ []) (h : assign f c sq d = some m) : getC m sq = [d] := by
  have hstep : Step m c := (step_core f).2.2.2.1 c sq d m h
  have hnem : getC m sq ≠ [] := hstep.2.2 sq hne
  have hsub : List.Sublist (getC m sq)
      (((getC c sq).erase d).foldl List.erase (getC c sq)) := by
    rw [assign_eq] at h
    exact assignGo_sq_sublist _ f c sq m h
  rw [foldl_erase_self] at hsub
  by_cases hd : d ∈ getC c sq
  · rw [if_pos hd] at hsub
    rcases sublist_singleton_cases hsub with hnil | hone
    · exact absurd hnil hnem
    · exact hone
  · rw [if_neg hd] at hsub
    exact absurd (List.sublist_nil.mp hsub) hnem

/-- Whenever removing the value would empty the square (and the value is
actually present), `_eliminate` signals a contradiction. -/
theorem eliminate_empties_none {f : Nat} {c : CandMap} {sq : Nat} {v : Char}
    (hv : v ∈ getC c sq) (hemp : (getC c sq).erase v = []) :
    eliminate f c sq v = none := by
  rw [eliminate.eq_def, if_neg (not_contains_false_iff.mpr hv)]
  cases f with
  | zero => rfl
  | succ g =>
    have hlt : sq < c.length := lt_length_of_getC_ne_nil (List.ne_nil_of_mem hv)
    simp only []
    rw [if_pos]
    rw [getC_set_eq c hlt, hemp]
    rfl

/-! ### Topology facts, checked by evaluation -/

/-- All structural facts about the 81 cells, 27 units, and the peer map that
the soundness proofs need, packaged as one executable check. -/
def topoCheck : Bool :=
  ((List.range 81).all (fun sq =>
    (peersOf sq).all (fun p =>
      decide (p < 81) && decide (p ≠ sq) &&
      UNITS.any (fun u => u.contains sq && u.contains p) &&
      (peersOf p).contains sq)))
  && UNITS.all (fun u =>
      decide (u.length = 9) && u.all (fun x => decide (x < 81)) &&
      decide u.Nodup &&
      u.all (fun a => u.all (fun b => decide (a = b) || (peersOf a).contains b)))

set_option maxHeartbeats 4000000 in
theorem topoCheck_true : topoCheck = true := by decide

theorem contains_true_iff {α : Type} [BEq α] [LawfulBEq α] {l : List α} {v : α} :
    l.contains v = true ↔ v ∈ l := by
  simp

theorem peers_facts {sq : Nat} (hsq : sq < 81) {p : Nat} (hp : p ∈ peersOf sq) :
    p < 81 ∧ p ≠ sq ∧ (∃ u ∈ UNITS, sq ∈ u ∧ p ∈ u) ∧ sq ∈ peersOf p := by
  have h := topoCheck_true
  rw [topoCheck, Bool.and_eq_true] at h
  have h1 := h.1
  rw [List.all_eq_true] at h1
  have h2 := h1 sq (List.mem_range.mpr hsq)
  rw [List.all_eq_true] at h2
  have h3 := h2 p hp
  simp only [Bool.and_eq_true, decide_eq_true_eq, List.any_eq_true,
    contains_true_iff] at h3
  obtain ⟨⟨⟨hlt, hne⟩, u, hu, hsqu, hpu⟩, hsymm⟩ := h3
  exact ⟨hlt, hne, ⟨u, hu, hsqu, hpu⟩, hsymm⟩

theorem unit_facts {u : List Nat} (hu : u ∈ UNITS) :
    u.length = 9 ∧ (∀ x ∈ u, x < 81) ∧ u.Nodup ∧
      (∀ a ∈ u, ∀ b ∈ u, a ≠ b → b ∈ peersOf a) := by
  have h := topoCheck_true
  rw [topoCheck, Bool.and_eq_true] at h
  have h1 := h.2
  rw [List.all_eq_true] at h1
  have h2 := h1 u hu
  simp only [Bool.and_eq_true, decide_eq_true_eq, List.all_eq_true, Bool.or_eq_true,
    contains_true_iff] at h2
  obtain ⟨⟨⟨hlen, hlt⟩, hnd⟩, hmates⟩ := h2
  refine ⟨hlen, hlt, hnd, ?_⟩
  intro a ha b hb hab
  rcases hmates a ha b hb with heq | hpeer
  · exact absurd heq hab
  · exact hpeer

/-! ### Soundness of propagation with respect to a full consistent solution -/

/-- The digit of board `s` at cell `i`. -/
def cellOf (s : List Char) (i : Nat) : Char := s.getD i BLANK

/-- A fully solved, consistent board: 81 digit cells with no unit repeating
a digit. -/
def ConsistentSol (s : List Char) : Prop :=
  s.length = 81 ∧ (∀ i, i < 81 → cellOf s i ∈ DIGITS) ∧
    ∀ u ∈ UNITS, (u.map (cellOf s)).Nodup

/-- A candidate map that still admits the solution `s`: every cell keeps its
solution digit, stays duplicate-free, and holds only digits. -/
def Faithful (s : List Char) (c : CandMap) : Prop :=
  c.length = 81 ∧ ∀ i, i < 81 →
    cellOf s i ∈ getC c i ∧ (getC c i).Nodup ∧ ∀ ch ∈ getC c i, ch ∈ DIGITS

theorem eq_singleton_of_mem_of_length_one {α : Type} {l : List α} {x : α}
    (hm : x ∈ l) (hl : l.length = 1) : l = [x] := by
  match l, hl with
  | [y], _ =>
    simp only [List.mem_singleton] at hm
    simp [hm]

theorem mem_of_nodup_subset_length {l D : List Char} (hnd : l.Nodup)
    (hsub : ∀ x ∈ l, x ∈ D) (hlen : D.length ≤ l.length) {v : Char} (hv : v ∈ D) :
    v ∈ l := by
  have hsp := List.subperm_of_subset hnd hsub
  have hperm := hsp.perm_of_length_le hlen
  exact hperm.mem_iff.mpr hv

theorem faithful_set_erase {s : List Char} {c : CandMap} {sq : Nat} {v : Char}
    (hf : Faithful s c) (hsq : sq < 81) (hv : v ≠ cellOf s sq) :
    Faithful s (c.set sq ((getC c sq).erase v)) := by
  have hlt : sq < c.length := hf.1 ▸ hsq
  refine ⟨by rw [List.length_set, hf.1], fun i hi => ?_⟩
  by_cases hisq : sq = i
  · subst hisq
    rw [getC_set_eq c hlt]
    obtain ⟨hm, hnd, hdig⟩ := hf.2 sq hsq
    exact ⟨(List.mem_erase_of_ne (Ne.symm hv)).mpr hm, hnd.erase v,
      fun ch hch => hdig ch ((List.erase_sublist v _).subset hch)⟩
  · rw [getC_set_ne c hisq]
    exact hf.2 i hi

theorem len_getC_le_sizeC : ∀ (c : CandMap) (sq : Nat), (getC c sq).length ≤ sizeC c
  | [], sq => by simp [getC, sizeC]
  | y :: t, 0 => by simp [getC, sizeC]
  | y :: t, n + 1 => by
    have h := len_getC_le_sizeC t n
    have h2 : sizeC (y :: t) = y.length + sizeC t := by simp [sizeC]
    have hg : getC (y :: t) (n + 1) = getC t n := rfl
    rw [hg, h2]
    omega

theorem sizeC_set : ∀ (c : CandMap) (sq : Nat) (x : List Char), sq < c.length →
    sizeC (c.set sq x) + (getC c sq).length = sizeC c + x.length
  | [], sq, x => by intro h; simp at h
  | y :: t, 0, x => by
    intro _
    have h1 : (y :: t).set 0 x = x :: t := rfl
    have hg : getC (y :: t) 0 = y := rfl
    rw [h1, hg]
    simp [sizeC]
    omega
  | y :: t, n + 1, x => by
    intro h
    have hrec := sizeC_set t n x (by simpa using h)
    have h1 : (y :: t).set (n + 1) x = y :: t.set n x := rfl
    have hg : getC (y :: t) (n + 1) = getC t n := rfl
    have h2 : sizeC (y :: t) = y.length + sizeC t := by simp [sizeC]
    have h3 : sizeC (y :: t.set n x) = y.length + sizeC (t.set n x) := by simp [sizeC]
    rw [h1, hg, h2, h3]
    omega

theorem eliminate_succ_unfold (g : Nat) (c : CandMap) (sq : Nat) (v : Char)
    (hv : v ∈ getC c sq) :
    eliminate (g + 1) c sq v =
      (let c1 := c.set sq ((getC c sq).erase v)
      if (getC c1 sq).length = 0 then none
      else
        match (if (getC c1 sq).length = 1 then
            elimPeers g c1 (peersOf sq) ((getC c1 sq).headD BLANK)
          else some c1) with
        | none => none
        | some c2 => elimUnits g c2 v (unitsOf sq)) := by
  rw [eliminate.eq_def, if_neg (not_contains_false_iff.mpr hv)]

/-- The propagation core is sound for a consistent full solution: from any
faithful map, eliminating a wrong value (or assigning the solution's value)
succeeds when given fuel at least twice the map size, and faithfulness is
preserved. -/
theorem sound_core {s : List Char} (hs : ConsistentSol s) : ∀ f : Nat,
    (∀ c sq v, Faithful s c → sq < 81 → v ∈ DIGITS → v ≠ cellOf s sq →
      2 * sizeC c ≤ f → ∃ c', eliminate f c sq v = some c' ∧ Faithful s c') ∧
    (∀ c ps v, Faithful s c → (∀ p ∈ ps, p < 81 ∧ v ≠ cellOf s p) → v ∈ DIGITS →
      2 * sizeC c ≤ f → ∃ c', elimPeers f c ps v = some c' ∧ Faithful s c') ∧
    (∀ c v us, Faithful s c → us ⊆ UNITS → v ∈ DIGITS → 2 * sizeC c ≤ f →
      ∃ c', elimUnits f c v us = some c' ∧ Faithful s c') ∧
    (∀ c sq, Faithful s c → sq < 81 → 2 * sizeC c ≤ f →
      ∃ c', assign f c sq (cellOf s sq) = some c' ∧ Faithful s c') ∧
    (∀ c sq os, Faithful s c → sq < 81 →
      (∀ o ∈ os, o ∈ DIGITS ∧ o ≠ cellOf s sq) → 2 * sizeC c ≤ f →
      ∃ c', assignGo f c sq os = some c' ∧ Faithful s c') := by
  intro f
  induction f using Nat.strong_induction_on with
  | _ f IH =>
  have hE : ∀ c sq v, Faithful s c → sq < 81 → v ∈ DIGITS → v ≠ cellOf s sq →
      2 * sizeC c ≤ f → ∃ c', eliminate f c sq v = some c' ∧ Faithful s c' := by
    intro c sq v hf hsq hvD hvne hfuel
    by_cases hv : v ∈ getC c sq
    · have hlt : sq < c.length := hf.1 ▸ hsq
      have hlen1 : 1 ≤ (getC c sq).length := by
        cases hg : getC c sq with
        | nil => rw [hg] at hv; exact absurd hv (List.not_mem_nil v)
        | cons a t => simp [hg]
      have hsize1 : 1 ≤ sizeC c := le_trans hlen1 (len_getC_le_sizeC c sq)
      cases f with
      | zero => omega
      | succ g =>
        rw [eliminate_succ_unfold g c sq v hv]
        simp only []
        have hf1 : Faithful s (c.set sq ((getC c sq).erase v)) :=
          faithful_set_erase hf hsq hvne
        have hgc1 : getC (c.set sq ((getC c sq).erase v)) sq = (getC c sq).erase v :=
          getC_set_eq c hlt _
        have hmem1 : cellOf s sq ∈ getC (c.set sq ((getC c sq).erase v)) sq :=
          (hf1.2 sq hsq).1
        have hne1 : getC (c.set sq ((getC c sq).erase v)) sq ≠ [] :=
          List.ne_nil_of_mem hmem1
        rw [if_neg (fun h0 => hne1 (List.length_eq_zero.mp h0))]
        have hsz1 : sizeC (c.set sq ((getC c sq).erase v)) + 1 = sizeC c := by
          have ha := sizeC_set c sq ((getC c sq).erase v) hlt
          have hb := List.length_erase_add_one hv
          omega
        have hfuel1 : 2 * sizeC (c.set sq ((getC c sq).erase v)) ≤ g := by omega
        by_cases h1 : (getC (c.set sq ((getC c sq).erase v)) sq).length = 1
        · rw [if_pos h1]
          have htv : getC (c.set sq ((getC c sq).erase v)) sq = [cellOf s sq] :=
            eq_singleton_of_mem_of_length_one hmem1 h1
          have hhead : (getC (c.set sq ((getC c sq).erase v)) sq).headD BLANK
              = cellOf s sq := by rw [htv]; rfl
          rw [hhead]
          have hpeers : ∀ p ∈ peersOf sq, p < 81 ∧ cellOf s sq ≠ cellOf s p := by
            intro p hp
            obtain ⟨hplt, hpne, ⟨u, hu, hsqu, hpu⟩, _⟩ := peers_facts hsq hp
            refine ⟨hplt, fun heq => ?_⟩
            exact hpne (List.inj_on_of_nodup_map (hs.2.2 u hu) hpu hsqu heq.symm)
          have hsD : cellOf s sq ∈ DIGITS := hs.2.1 sq hsq
          obtain ⟨c2, hc2, hf2⟩ :=
            (IH g (Nat.lt_succ_self g)).2.1 _ (peersOf sq) (cellOf s sq)
              hf1 hpeers hsD hfuel1
          rw [hc2]
          simp only []
          have hsz2 : sizeC c2 ≤ sizeC (c.set sq ((getC c sq).erase v)) :=
            sizeC_le_of_step ((step_core g).2.1 _ _ _ _ hc2)
          obtain ⟨c3, hc3, hf3⟩ :=
            (IH g (Nat.lt_succ_self g)).2.2.1 c2 v (unitsOf sq) hf2
              (fun u hu => List.mem_of_mem_filter hu) hvD (by omega)
          exact ⟨c3, hc3, hf3⟩
        · rw [if_neg h1]
          simp only []
          obtain ⟨c3, hc3, hf3⟩ :=
            (IH g (Nat.lt_succ_self g)).2.2.1 _ v (unitsOf sq) hf1
              (fun u hu => List.mem_of_mem_filter hu) hvD hfuel1
          exact ⟨c3, hc3, hf3⟩
    · exact ⟨c, eliminate_no_op hv, hf⟩
  have hP : ∀ ps c v, Faithful s c → (∀ p ∈ ps, p < 81 ∧ v ≠ cellOf s p) →
      v ∈ DIGITS → 2 * sizeC c ≤ f →
      ∃ c', elimPeers f c ps v = some c' ∧ Faithful s c' := by
    intro ps
    induction ps with
    | nil => exact fun c v hf _ _ _ => ⟨c, elimPeers_nil f c v, hf⟩
    | cons p rest ih =>
      intro c v hf hps hvD hfuel
      obtain ⟨c1, hc1, hf1⟩ := hE c p v hf (hps p (List.mem_cons_self p rest)).1 hvD
        (hps p (List.mem_cons_self p rest)).2 hfuel
      have hsz : sizeC c1 ≤ sizeC c := sizeC_le_of_step ((step_core f).1 _ _ _ _ hc1)
      obtain ⟨c', hc', hf'⟩ := ih c1 v hf1
        (fun q hq => hps q (List.mem_cons_of_mem p hq)) hvD (by omega)
      exact ⟨c', by rw [elimPeers_cons, hc1]; exact hc', hf'⟩
  have hG : ∀ os c sq, Faithful s c → sq < 81 →
      (∀ o ∈ os, o ∈ DIGITS ∧ o ≠ cellOf s sq) → 2 * sizeC c ≤ f →
      ∃ c', assignGo f c sq os = some c' ∧ Faithful s c' := by
    intro os
    induction os with
    | nil => exact fun c sq hf _ _ _ => ⟨c, assignGo_nil f c sq, hf⟩
    | cons o rest ih =>
      intro c sq hf hsq hos hfuel
      obtain ⟨c1, hc1, hf1⟩ := hE c sq o hf hsq (hos o (List.mem_cons_self o rest)).1
        (hos o (List.mem_cons_self o rest)).2 hfuel
      have hsz : sizeC c1 ≤ sizeC c := sizeC_le_of_step ((step_core f).1 _ _ _ _ hc1)
      obtain ⟨c', hc', hf'⟩ := ih c1 sq hf1 hsq
        (fun q hq => hos q (List.mem_cons_of_mem o hq)) (by omega)
      exact ⟨c', by rw [assignGo_cons, hc1]; exact hc', hf'⟩
  have hA : ∀ c sq, Faithful s c → sq < 81 → 2 * sizeC c ≤ f →
      ∃ c', assign f c sq (cellOf s sq) = some c' ∧ Faithful s c' := by
    intro c sq hf hsq hfuel
    obtain ⟨hm, hnd, hdig⟩ := hf.2 sq hsq
    have hos : ∀ o ∈ (getC c sq).erase (cellOf s sq), o ∈ DIGITS ∧ o ≠ cellOf s sq := by
      intro o ho
      have := hnd.mem_erase_iff.mp ho
      exact ⟨hdig o this.2, this.1⟩
    obtain ⟨c', hc', hf'⟩ := hG _ c sq hf hsq hos hfuel
    exact ⟨c', by rw [assign_eq]; exact hc', hf'⟩
  have hU : ∀ us c v, Faithful s c → us ⊆ UNITS → v ∈ DIGITS → 2 * sizeC c ≤ f →
      ∃ c', elimUnits f c v us = some c' ∧ Faithful s c' := by
    intro us
    induction us with
    | nil => exact fun c v hf _ _ _ => ⟨c, elimUnits_nil f c v, hf⟩
    | cons u rest ih =>
      intro c v hf hsub hvD hfuel
      have hu : u ∈ UNITS := hsub (List.mem_cons_self u rest)
      obtain ⟨hlen9, hult, hund, hmates⟩ := unit_facts hu
      obtain ⟨p, hpu, hpv⟩ : ∃ p ∈ u, cellOf s p = v := by
        have hnd9 := hs.2.2 u hu
        have hsubD : ∀ x ∈ u.map (cellOf s), x ∈ DIGITS := by
          intro x hx
          obtain ⟨q, hqu, rfl⟩ := List.mem_map.mp hx
          exact hs.2.1 q (hult q hqu)
        have hlenD : DIGITS.length ≤ (u.map (cellOf s)).length := by
          rw [List.length_map, hlen9]; rfl
        have hvmem : v ∈ u.map (cellOf s) :=
          mem_of_nodup_subset_length hnd9 hsubD hlenD hvD
        obtain ⟨q, hqu, hq⟩ := List.mem_map.mp hvmem
        exact ⟨q, hqu, hq⟩
      have hvp : v ∈ getC c p := hpv ▸ (hf.2 p (hult p hpu)).1
      have hpl : p ∈ u.filter (fun s2 => (getC c s2).contains v) :=
        List.mem_filter.mpr ⟨hpu, contains_true_iff.mpr hvp⟩
      have hplen : (u.filter (fun s2 => (getC c s2).contains v)).length ≠ 0 := by
        intro h0
        rw [List.length_eq_zero] at h0
        rw [h0] at hpl
        exact List.not_mem_nil p hpl
      rw [elimUnits_cons]
      simp only []
      rw [if_neg hplen]
      by_cases h1 : (u.filter (fun s2 => (getC c s2).contains v)).length = 1
      · rw [if_pos h1]
        have hpl1 : u.filter (fun s2 => (getC c s2).contains v) = [p] :=
          eq_singleton_of_mem_of_length_one hpl h1
        have hhead : (u.filter (fun s2 => (getC c s2).contains v)).headD 0 = p := by
          rw [hpl1]; rfl
        rw [hhead]
        obtain ⟨c1, hc1, hf1⟩ := hA c p hf (hult p hpu) hfuel
        rw [hpv] at hc1
        rw [hc1]
        simp only []
        have hsz : sizeC c1 ≤ sizeC c :=
          sizeC_le_of_step ((step_core f).2.2.2.1 _ _ _ _ hc1)
        obtain ⟨c', hc', hf'⟩ := ih c1 v hf1
          (fun w hw => hsub (List.mem_cons_of_mem u hw)) hvD (by omega)
        exact ⟨c', hc', hf'⟩
      · rw [if_neg h1]
        exact ih c v hf (fun w hw => hsub (List.mem_cons_of_mem u hw)) hvD hfuel
  exact ⟨hE, fun c ps v => hP ps c v, fun c v us => hU us c v, hA,
    fun c sq os => hG os c sq⟩

/-! ### Validator facts -/

theorem findBad_none_iff : ∀ (b : List Char) (i : Nat),
    findBad i b = none ↔ ∀ ch ∈ b, validChar ch = true := by
  intro b
  induction b with
  | nil => intro i; simp [findBad]
  | cons x rest ih =>
    intro i
    rw [findBad]
    by_cases hx : validChar x = false
    · rw [if_pos hx]
      simp only [List.mem_cons]
      constructor
      · intro h; exact absurd h (by simp)
      · intro h
        rw [h x (Or.inl rfl)] at hx
        exact absurd hx (by simp)
    · rw [if_neg hx]
      have hxt : validChar x = true := by
        cases hb : validChar x with
        | false => exact absurd hb hx
        | true => rfl
      rw [ih (i + 1)]
      constructor
      · intro h ch hch
        rcases List.mem_cons.mp hch with rfl | hm
        · exact hxt
        · exact h ch hm
      · intro h ch hch
        exact h ch (List.mem_cons_of_mem x hch)

theorem findBad_some : ∀ (b : List Char) (i j : Nat) (ch : Char),
    findBad i b = some (j, ch) →
    i ≤ j ∧ j - i < b.length ∧ b.getD (j - i) BLANK = ch ∧ validChar ch = false ∧
      ∀ k, k < j - i → validChar (b.getD k BLANK) = true := by
  intro b
  induction b with
  | nil => intro i j ch h; exact absurd h (by simp [findBad])
  | cons x rest ih =>
    intro i j ch h
    rw [findBad] at h
    by_cases hx : validChar x = false
    · rw [if_pos hx] at h
      cases h
      refine ⟨Nat.le_refl _, by simp, by simp, hx, fun k hk => by omega⟩
    · rw [if_neg hx] at h
      have hxt : validChar x = true := by
        cases hb : validChar x with
        | false => exact absurd hb hx
        | true => rfl
      obtain ⟨hle, hlt, hget, hbad, hpre⟩ := ih (i + 1) j ch h
      have hij : i + 1 ≤ j := hle
      refine ⟨by omega, by simp; omega, ?_, hbad, ?_⟩
      · have : j - i = (j - (i + 1)) + 1 := by omega
        rw [this]
        simpa using hget
      · intro k hk
        cases k with
        | zero => simpa using hxt
        | succ k' =>
          have : k' < j - (i + 1) := by omega
          simpa using hpre k' this

theorem validate_board_none_iff (b : List Char) :
    validate_board b = none ↔
      (b.length = NR_SQUARES ∧ ∀ ch ∈ b, validChar ch = true) := by
  rw [validate_board]
  by_cases hemp : b.isEmpty
  · rw [if_pos hemp]
    have : b = [] := List.isEmpty_iff.mp hemp
    subst this
    simp [NR_SQUARES]
  · rw [if_neg hemp]
    by_cases hlen : b.length ≠ NR_SQUARES
    · rw [if_pos (show b.length ≠ NR_SQUARES from hlen)]
      constructor
      · intro h; exact absurd h (by simp)
      · intro h; exact absurd h.1 hlen
    · rw [if_neg hlen]
      push_neg at hlen
      cases hfb : findBad 0 b with
      | some p =>
        constructor
        · intro h
          exact absurd h (by simp)
        · intro h
          have := (findBad_none_iff b 0).mpr h.2
          rw [this] at hfb
          exact absurd hfb (by simp)
      | none =>
        simp only []
        constructor
        · intro _
          exact ⟨hlen, (findBad_none_iff b 0).mp hfb⟩
        · intro _
          exact trivial

theorem validate_board_invalidChar {b : List Char} {j : Nat} {ch : Char}
    (h : validate_board b = some (.invalidChar j ch)) :
    j < b.length ∧ b.getD j BLANK = ch ∧ validChar ch = false ∧
      ∀ k, k < j → validChar (b.getD k BLANK) = true := by
  rw [validate_board] at h
  by_cases hemp : b.isEmpty
  · rw [if_pos hemp] at h
    exact absurd h (by simp)
  · rw [if_neg hemp] at h
    by_cases hlen : b.length ≠ NR_SQUARES
    · rw [if_pos (show b.length ≠ NR_SQUARES from hlen)] at h
      exact absurd h (by simp)
    · rw [if_neg hlen] at h
      cases hfb : findBad 0 b with
      | none => rw [hfb] at h; exact absurd h (by simp)
      | some p =>
        rw [hfb] at h
        obtain ⟨j', ch'⟩ := p
        simp only [Option.some.injEq, SErr.invalidChar.injEq] at h
        obtain ⟨rfl, rfl⟩ := h
        obtain ⟨_, hlt, hget, hbad, hpre⟩ := findBad_some b 0 j' ch' hfb
        simp only [Nat.sub_zero] at hlt hget hpre
        exact ⟨hlt, hget, hbad, hpre⟩

theorem validate_board_cases (b : List Char) :
    validate_board b = none ∨ (b = [] ∧ validate_board b = some .emptyBoard) ∨
      (b ≠ [] ∧ b.length ≠ NR_SQUARES ∧ validate_board b = some .invalidSize) ∨
      ∃ j ch, validate_board b = some (.invalidChar j ch) := by
  rw [validate_board]
  by_cases hemp : b.isEmpty
  · rw [if_pos hemp]
    exact Or.inr (Or.inl ⟨List.isEmpty_iff.mp hemp, rfl⟩)
  · rw [if_neg hemp]
    by_cases hlen : b.length ≠ NR_SQUARES
    · rw [if_pos (show b.length ≠ NR_SQUARES from hlen)]
      exact Or.inr (Or.inr (Or.inl ⟨fun h => hemp (by simp [h]), hlen, rfl⟩))
    · rw [if_neg hlen]
      cases hfb : findBad 0 b with
      | none => exact Or.inl rfl
      | some p => exact Or.inr (Or.inr (Or.inr ⟨p.1, p.2, rfl⟩))

/-! ### Propagating all givens of a full consistent solution -/

theorem getC_replicate (i : Nat) (hi : i < 81) :
    getC (List.replicate NR_SQUARES DIGITS) i = DIGITS := by
  rw [getC, List.getD_eq_getElem _ _ (by simpa [NR_SQUARES] using hi)]
  exact List.getElem_replicate ..

theorem faithful_initial {s : List Char} (hs : ConsistentSol s) :
    Faithful s (List.replicate NR_SQUARES DIGITS) := by
  refine ⟨by simp [NR_SQUARES], fun i hi => ?_⟩
  rw [getC_replicate i hi]
  exact ⟨hs.2.1 i hi, by decide, fun ch hch => hch⟩

theorem sizeC_initial : sizeC (List.replicate NR_SQUARES DIGITS) = 729 := by decide

theorem singleton_of_step {m c : CandMap} {i : Nat} {x : Char} (hst : Step m c)
    (hc : getC c i = [x]) (hm : x ∈ getC m i) : getC m i = [x] := by
  have hsub := hst.2.1 i
  rw [hc] at hsub
  rcases sublist_singleton_cases hsub with hnil | hone
  · rw [hnil] at hm
    exact absurd hm (List.not_mem_nil x)
  · exact hone

theorem assignGivens_sound {s : List Char} (hs : ConsistentSol s) :
    ∀ (idxs : List Nat) (c : CandMap), Faithful s c → (∀ i ∈ idxs, i < 81) →
    sizeC c ≤ 729 →
    ∃ m, assignGivens PFUEL s c idxs = some m ∧ Faithful s m ∧ Step m c ∧
      ∀ i ∈ idxs, getC m i = [cellOf s i] := by
  intro idxs
  induction idxs with
  | nil =>
    intro c hf _ _
    exact ⟨c, rfl, hf, Step.refl c, fun i hi => absurd hi (List.not_mem_nil i)⟩
  | cons i rest ih =>
    intro c hf hlt hsz
    have hi81 : i < 81 := hlt i (List.mem_cons_self i rest)
    have hvD : cellOf s i ∈ DIGITS := hs.2.1 i hi81
    have hfuel : 2 * sizeC c ≤ PFUEL := by
      have : PFUEL = 2000 := rfl
      omega
    obtain ⟨c1, hc1, hf1⟩ := (sound_core hs PFUEL).2.2.2.1 c i hf hi81 hfuel
    have hsingle : getC c1 i = [cellOf s i] :=
      assign_sets_singleton (List.ne_nil_of_mem (hf.2 i hi81).1) hc1
    have hstep1 : Step c1 c := (step_core PFUEL).2.2.2.1 _ _ _ _ hc1
    have hsz1 : sizeC c1 ≤ 729 := le_trans (sizeC_le_of_step hstep1) hsz
    obtain ⟨m, hm, hfm, hstm, hsing⟩ := ih c1 hf1
      (fun j hj => hlt j (List.mem_cons_of_mem i hj)) hsz1
    refine ⟨m, ?_, hfm, hstm.trans hstep1, ?_⟩
    · rw [assignGivens]
      rw [show (s.getD i BLANK) = cellOf s i from rfl]
      rw [if_pos (contains_true_iff.mpr hvD)]
      rw [hc1]
      simp only []
      exact hm
    · intro j hj
      rcases List.mem_cons.mp hj with rfl | hjr
      · exact singleton_of_step hstm hsingle (hfm.2 j hi81).1
      · exact hsing j hjr

theorem mem_digits_of_mem_sol {s : List Char} (hs : ConsistentSol s) {ch : Char}
    (hch : ch ∈ s) : ch ∈ DIGITS := by
  obtain ⟨i, hi, hieq⟩ := List.mem_iff_getElem.mp hch
  have : cellOf s i = ch := by
    rw [cellOf, List.getD_eq_getElem _ _ hi, hieq]
  rw [← this]
  exact hs.2.1 i (hs.1 ▸ hi)

theorem validate_board_sol {s : List Char} (hs : ConsistentSol s) :
    validate_board s = none := by
  rw [validate_board_none_iff]
  refine ⟨hs.1, fun ch hch => ?_⟩
  rw [validChar, Bool.or_eq_true]
  exact Or.inl (contains_true_iff.mpr (mem_digits_of_mem_sol hs hch))

theorem get_candidates_map_sol {s : List Char} (hs : ConsistentSol s) :
    ∃ m, get_candidates_map s = .ok (some m) ∧ Faithful s m ∧
      ∀ i, i < 81 → getC m i = [cellOf s i] := by
  obtain ⟨m, hm, hfm, _, hsing⟩ := assignGivens_sound hs (List.range NR_SQUARES)
    (List.replicate NR_SQUARES DIGITS) (faithful_initial hs)
    (fun i hi => by simpa [NR_SQUARES] using List.mem_range.mp hi)
    (le_of_eq sizeC_initial)
  refine ⟨m, ?_, hfm, fun i hi => hsing i (List.mem_range.mpr (by simpa [NR_SQUARES] using hi))⟩
  rw [get_candidates_map, validate_board_sol hs]
  simp only []
  rw [hm]

/-! ### The searches on an already-solved candidate map -/

theorem foldl_max_from_one {g : Nat → Nat} : ∀ (l : List Nat), (∀ i ∈ l, g i = 1) →
    l.foldl (fun m i => if g i > m then g i else m) 1 = 1 := by
  intro l
  induction l with
  | nil => intro _; rfl
  | cons x rest ih =>
    intro h
    have hx : g x = 1 := h x (List.mem_cons_self x rest)
    have hstep : (if g x > 1 then g x else 1) = 1 := by rw [hx]; simp
    rw [List.foldl_cons, hstep]
    exact ih (fun i hi => h i (List.mem_cons_of_mem x hi))

theorem maxLen_all_one {c : CandMap} (h : ∀ i, i < 81 → (getC c i).length = 1) :
    maxLen c = 1 := by
  rw [maxLen]
  have hr : List.range NR_SQUARES = 0 :: (List.range 80).map (· + 1) := by
    rw [show NR_SQUARES = 80 + 1 from rfl, List.range_succ_eq_map]
  rw [hr, List.foldl_cons]
  have h0 : (if (getC c 0).length > 0 then (getC c 0).length else 0) = 1 := by
    simp [h 0 (by omega)]
  rw [h0]
  exact foldl_max_from_one _ (fun i hi => by
    obtain ⟨j, hj, rfl⟩ := List.mem_map.mp hi
    exact h (j + 1) (by have := List.mem_range.mp hj; omega))

theorem search_none (f : Nat) (rev : Bool) : search f none rev = none := by
  cases f <;> rfl

theorem search_some_zero (c : CandMap) (rev : Bool) : search 0 (some c) rev = none := rfl

theorem search_some_succ (g : Nat) (c : CandMap) (rev : Bool) :
    search (g + 1) (some c) rev =
      (if maxLen c = 1 then some c
      else
        match chooseMin c with
        | none => none
        | some sq =>
          (if rev then (getC c sq).reverse else getC c sq).findSome?
            (fun v => search g (assign PFUEL c sq v) rev)) := rfl

theorem searchCount_zero (c : CandMap) (cnt lim : Nat) :
    searchCount 0 c cnt lim = cnt := rfl

theorem searchCount_succ (g : Nat) (c : CandMap) (cnt lim : Nat) :
    searchCount (g + 1) c cnt lim =
      (if ((List.range NR_SQUARES).any (fun sq => (getC c sq).length = 0)) = true then cnt
      else if ((List.range NR_SQUARES).all (fun sq => (getC c sq).length = 1)) = true then
        cnt + 1
      else
        match chooseMin c with
        | none => cnt
        | some sq =>
          (getC c sq).foldl
            (fun cnt2 v =>
              if lim ≤ cnt2 then cnt2
              else
                match assign PFUEL c sq v with
                | none => cnt2
                | some c2 => searchCount g c2 cnt2 lim) cnt) := rfl

theorem search_all_one {c : CandMap} (h : ∀ i, i < 81 → (getC c i).length = 1)
    (g : Nat) (rev : Bool) : search (g + 1) (some c) rev = some c := by
  rw [search_some_succ, if_pos (maxLen_all_one h)]

theorem map_getD_self : ∀ (l : List Char),
    (List.range l.length).map (fun i => l.getD i BLANK) = l := by
  intro l
  induction l with
  | nil => rfl
  | cons x t ih =>
    rw [List.length_cons, List.range_succ_eq_map, List.map_cons, List.map_map]
    have h2 : (List.range t.length).map ((fun i => (x :: t).getD i BLANK) ∘ (· + 1))
        = (List.range t.length).map (fun i => t.getD i BLANK) := by
      exact List.map_congr_left (fun i _ => rfl)
    rw [h2, ih]
    rfl

theorem flatten_singletons : ∀ (l : List Nat) (g : Nat → Char),
    (l.map (fun i => [g i])).flatten = l.map g := by
  intro l g
  induction l with
  | nil => rfl
  | cons x t ih => simp [ih]

theorem renderMap_solved {s : List Char} {m : CandMap} (hlen : s.length = 81)
    (hm : ∀ i, i < 81 → getC m i = [cellOf s i]) : renderMap m = s := by
  rw [renderMap]
  have h1 : (List.range NR_SQUARES).map (fun sq => getC m sq)
      = (List.range NR_SQUARES).map (fun i => [cellOf s i]) :=
    List.map_congr_left (fun i hi => hm i (by simpa [NR_SQUARES] using List.mem_range.mp hi))
  rw [h1, flatten_singletons]
  have h2 : (List.range NR_SQUARES) = List.range s.length := by rw [hlen]; rfl
  rw [h2]
  exact map_getD_self s

theorem filter_digits_sol {s : List Char} (hs : ConsistentSol s) :
    (s.filter (fun ch => DIGITS.contains ch)).length = 81 := by
  have : s.filter (fun ch => DIGITS.contains ch) = s :=
    List.filter_eq_self.mpr (fun ch hch =>
      contains_true_iff.mpr (mem_digits_of_mem_sol hs hch))
  rw [this, hs.1]

/-- `solve` maps an already-solved consistent board to itself (in both
rotation directions). -/
theorem solve_solved {s : List Char} (hs : ConsistentSol s) (rev : Bool) :
    solve s rev = .ok (some s) := by
  obtain ⟨m, hgc, hfm, hsing⟩ := get_candidates_map_sol hs
  have hlen1 : ∀ i, i < 81 → (getC m i).length = 1 := fun i hi => by rw [hsing i hi]; rfl
  have hsearch : search SFUEL (some m) rev = some m := by
    rw [show SFUEL = 99 + 1 from rfl]
    exact search_all_one hlen1 99 rev
  rw [solve, validate_board_sol hs]
  simp only []
  rw [if_neg (by rw [filter_digits_sol hs]; have h17 : MIN_GIVENS = 17 := rfl; omega)]
  rw [hgc]
  simp only []
  rw [hsearch]
  simp only []
  rw [renderMap_solved hs.1 hsing]

/-- `_count_solutions` finds exactly one solution on an already-solved
consistent board. -/
theorem count_solutions_solved {s : List Char} (hs : ConsistentSol s) :
    count_solutions s 2 = .ok 1 := by
  obtain ⟨m, hgc, hfm, hsing⟩ := get_candidates_map_sol hs
  have hlen1 : ∀ i, i < 81 → (getC m i).length = 1 := fun i hi => by rw [hsing i hi]; rfl
  have hany : ((List.range NR_SQUARES).any fun sq => decide ((getC m sq).length = 0)) = false := by
    rw [List.any_eq_false]
    intro i hi
    have := hlen1 i (by simpa [NR_SQUARES] using List.mem_range.mp hi)
    simp [this]
  have hall : ((List.range NR_SQUARES).all fun sq => decide ((getC m sq).length = 1)) = true := by
    rw [List.all_eq_true]
    intro i hi
    have := hlen1 i (by simpa [NR_SQUARES] using List.mem_range.mp hi)
    simp [this]
  have hsc : searchCount SFUEL m 0 2 = 1 := by
    rw [show SFUEL = 99 + 1 from rfl, searchCount_succ]
    rw [if_neg (by rw [hany]; simp), if_pos (by rw [hall])]
  rw [count_solutions, validate_board_sol hs]
  simp only []
  rw [hgc]
  simp only []
  rw [hsc]

theorem has_unique_solution_solved {s : List Char} (hs : ConsistentSol s) :
    has_unique_solution s = true := by
  rw [has_unique_solution, count_solutions_solved hs]
  rfl

/-! ### From a positive solution count to search success -/

theorem foldl_nat_mono {stp : Nat → Char → Nat} (hstp : ∀ a v, a ≤ stp a v) :
    ∀ (vs : List Char) (a : Nat), a ≤ vs.foldl stp a := by
  intro vs
  induction vs with
  | nil => intro a; exact Nat.le_refl a
  | cons v rest ih =>
    intro a
    exact le_trans (hstp a v) (ih (stp a v))

theorem searchCount_mono : ∀ (f : Nat) (c : CandMap) (cnt lim : Nat),
    cnt ≤ searchCount f c cnt lim := by
  intro f
  induction f with
  | zero => intro c cnt lim; rw [searchCount_zero]
  | succ g ih =>
    intro c cnt lim
    rw [searchCount_succ]
    by_cases hany : ((List.range NR_SQUARES).any (fun sq => (getC c sq).length = 0)) = true
    · rw [if_pos hany]
    · rw [if_neg hany]
      by_cases hall : ((List.range NR_SQUARES).all (fun sq => (getC c sq).length = 1)) = true
      · rw [if_pos hall]; omega
      · rw [if_neg hall]
        cases hmin : chooseMin c with
        | none => exact Nat.le_refl cnt
        | some sq =>
          simp only []
          refine foldl_nat_mono (fun a v => ?_) (getC c sq) cnt
          by_cases hab : lim ≤ a
          · rw [if_pos hab]
          · rw [if_neg hab]
            cases ha : assign PFUEL c sq v with
            | none => exact Nat.le_refl a
            | some c2 => simp only []; exact ih c2 a lim

theorem foldl_max_ge {gx : Nat → Nat} : ∀ (l : List Nat) (a : Nat),
    a ≤ l.foldl (fun m i => if gx i > m then gx i else m) a ∧
      ∀ x ∈ l, gx x ≤ l.foldl (fun m i => if gx i > m then gx i else m) a := by
  intro l
  induction l with
  | nil => intro a; exact ⟨Nat.le_refl a, fun x hx => absurd hx (List.not_mem_nil x)⟩
  | cons y rest ih =>
    intro a
    rw [List.foldl_cons]
    have hstep : a ≤ (if gx y > a then gx y else a) ∧ gx y ≤ (if gx y > a then gx y else a) := by
      by_cases hgy : gx y > a
      · rw [if_pos hgy]; omega
      · rw [if_neg hgy]; omega
    obtain ⟨h1, h2⟩ := ih (if gx y > a then gx y else a)
    refine ⟨le_trans hstep.1 h1, fun x hx => ?_⟩
    rcases List.mem_cons.mp hx with rfl | hxr
    · exact le_trans hstep.2 h1
    · exact h2 x hxr

theorem maxLen_ge {c : CandMap} {i : Nat} (hi : i < 81) :
    (getC c i).length ≤ maxLen c := by
  rw [maxLen]
  exact (@foldl_max_ge (fun sq => (getC c sq).length) (List.range NR_SQUARES) 0).2 i
    (List.mem_range.mpr (by simpa [NR_SQUARES] using hi))

/-- If the counting search found at least one solution below a map, the
solving search succeeds on that same map (both searches share the
minimum-candidates choice and visit the candidate values in the same
order). -/
theorem searchCount_progress : ∀ (f : Nat) (c : CandMap) (cnt lim : Nat),
    cnt < searchCount f c cnt lim → ∃ m, search f (some c) false = some m := by
  intro f
  induction f with
  | zero => intro c cnt lim h; rw [searchCount_zero] at h; omega
  | succ g ih =>
    intro c cnt lim h
    rw [searchCount_succ] at h
    by_cases hany : ((List.range NR_SQUARES).any (fun sq => (getC c sq).length = 0)) = true
    · rw [if_pos hany] at h; omega
    · rw [if_neg hany] at h
      by_cases hall : ((List.range NR_SQUARES).all (fun sq => (getC c sq).length = 1)) = true
      · have hone : ∀ i, i < 81 → (getC c i).length = 1 := by
          intro i hilt
          have := List.all_eq_true.mp hall i
            (List.mem_range.mpr (by simpa [NR_SQUARES] using hilt))
          simpa using this
        exact ⟨c, search_all_one hone g false⟩
      · rw [if_neg hall] at h
        cases hmin : chooseMin c with
        | none =>
          rw [hmin] at h
          simp only [] at h
          omega
        | some sq =>
          rw [hmin] at h
          simp only [] at h
          have hmaxne : maxLen c ≠ 1 := by
            have hexists : ∃ i, i < 81 ∧ (getC c i).length ≠ 1 := by
              by_contra hno
              push_neg at hno
              exact hall (List.all_eq_true.mpr (fun i hi => by
                have hilt : i < 81 := by
                  have := List.mem_range.mp hi
                  simpa [NR_SQUARES] using this
                simp [hno i hilt]))
            obtain ⟨i, hilt, hne1⟩ := hexists
            have hge1 : (getC c i).length ≠ 0 := by
              intro h0
              apply hany
              rw [List.any_eq_true]
              exact ⟨i, List.mem_range.mpr (by simpa [NR_SQUARES] using hilt),
                by simp [h0]⟩
            have hge2 : 2 ≤ (getC c i).length := by omega
            have := @maxLen_ge c i hilt
            omega
          rw [search_some_succ, if_neg hmaxne, hmin]
          simp only []
          have hloop : ∀ (vs : List Char) (a : Nat),
              a < vs.foldl (fun cnt2 v =>
                if lim ≤ cnt2 then cnt2
                else
                  match assign PFUEL c sq v with
                  | none => cnt2
                  | some c2 => searchCount g c2 cnt2 lim) a →
              ∃ m, vs.findSome? (fun v => search g (assign PFUEL c sq v) false) = some m := by
            intro vs
            induction vs with
            | nil => intro a ha; rw [List.foldl_nil] at ha; omega
            | cons v rest ihv =>
              intro a ha
              rw [List.foldl_cons] at ha
              rw [List.findSome?_cons]
              cases hsv : search g (assign PFUEL c sq v) false with
              | some m => exact ⟨m, rfl⟩
              | none =>
                by_cases hab : lim ≤ a
                · rw [if_pos hab] at ha
                  exact ihv a ha
                · rw [if_neg hab] at ha
                  cases hasn : assign PFUEL c sq v with
                  | none => rw [hasn] at ha; exact ihv a ha
                  | some c2 =>
                    rw [hasn] at ha
                    simp only [] at ha
                    by_cases hinc : a < searchCount g c2 a lim
                    · obtain ⟨m, hm⟩ := ih c2 a lim hinc
                      rw [hasn] at hsv
                      rw [hm] at hsv
                      exact absurd hsv (by simp)
                    · have heq : searchCount g c2 a lim = a := by
                        have := searchCount_mono g c2 a lim
                        omega
                      rw [heq] at ha
                      exact ihv a ha
          exact hloop (getC c sq) cnt h

/-- On a uniquely solvable board with enough givens, `solve` succeeds. -/
theorem solve_of_count_one {b : List Char} (hval : validate_board b = none)
    (hgiv : MIN_GIVENS ≤ (b.filter (fun ch => DIGITS.contains ch)).length)
    (hcount : count_solutions b 2 = .ok 1) :
    ∃ r, solve b false = .ok (some r) := by
  rw [count_solutions, hval] at hcount
  simp only [] at hcount
  cases hgc : get_candidates_map b with
  | error e => rw [hgc] at hcount; exact absurd hcount (by simp)
  | ok copt =>
    rw [hgc] at hcount
    cases copt with
    | none => simp only [] at hcount; exact absurd hcount (by simp)
    | some c =>
      simp only [Except.ok.injEq] at hcount
      obtain ⟨m, hm⟩ := searchCount_progress SFUEL c 0 2 (by omega)
      rw [solve, hval]
      simp only []
      rw [if_neg (by omega), hgc]
      simp only []
      rw [hm]
      exact ⟨renderMap m, rfl⟩

/-! ### The Fisher-Yates shuffle preserves the multiset of elements -/

theorem count_set_lt {α : Type} [DecidableEq α] :
    ∀ (l : List α) (i : Nat) (x d y : α), i < l.length →
    (l.set i x).count y + (if l.getD i d = y then 1 else 0)
      = l.count y + (if x = y then 1 else 0) := by
  intro l
  induction l with
  | nil => intro i x d y h; simp at h
  | cons z t ih =>
    intro i x d y h
    cases i with
    | zero =>
      have h1 : (z :: t).set 0 x = x :: t := rfl
      have h2 : (z :: t).getD 0 d = z := rfl
      rw [h1, h2, List.count_cons, List.count_cons]
      simp only [beq_iff_eq]
      omega
    | succ n =>
      have h1 : (z :: t).set (n + 1) x = z :: t.set n x := rfl
      have h2 : (z :: t).getD (n + 1) d = t.getD n d := rfl
      rw [h1, h2, List.count_cons, List.count_cons]
      have h3 := ih n x d y (by simpa using h)
      simp only [beq_iff_eq]
      omega

theorem set_getD_self {α : Type} : ∀ (l : List α) (i : Nat) (d : α),
    i < l.length → l.set i (l.getD i d) = l := by
  intro l
  induction l with
  | nil => intro i d h; simp at h
  | cons z t ih =>
    intro i d h
    cases i with
    | zero => rfl
    | succ n =>
      have : (z :: t).set (n + 1) (t.getD n d) = z :: t.set n (t.getD n d) := rfl
      rw [show (z :: t).getD (n + 1) d = t.getD n d from rfl, this,
        ih n d (by simpa using h)]

theorem getD_set_ne {α : Type} (d : α) : ∀ (l : List α) {i j : Nat} (x : α),
    i ≠ j → (l.set i x).getD j d = l.getD j d := by
  intro l
  induction l with
  | nil => intro i j x _; rfl
  | cons z t ih =>
    intro i j x h
    cases i with
    | zero =>
      cases j with
      | zero => exact absurd rfl h
      | succ m => rfl
    | succ n =>
      cases j with
      | zero => rfl
      | succ m => exact ih x (show n ≠ m by omega)

theorem count_swapL {α : Type} [DecidableEq α] (l : List α) (i j : Nat) (d y : α)
    (hi : i < l.length) (hj : j < l.length) :
    (swapL l i j d).count y = l.count y := by
  show ((l.set i (l.getD j d)).set j (l.getD i d)).count y = l.count y
  by_cases hij : i = j
  · subst hij
    simp only [set_getD_self l i d hi]
  · have hlen : (l.set i (l.getD j d)).length = l.length := List.length_set l i _
    have e1 := count_set_lt l i (l.getD j d) d y hi
    have e2 := count_set_lt (l.set i (l.getD j d)) j (l.getD i d) d y (by omega)
    have hgj : (l.set i (l.getD j d)).getD j d = l.getD j d :=
      getD_set_ne d l (l.getD j d) hij
    rw [hgj] at e2
    omega

theorem count_shuffleGo {α : Type} [DecidableEq α] [Inhabited α] :
    ∀ (i : Nat) (l : List α) (rng : Rng) (y : α), i < l.length →
    ((shuffleGo l i rng).1.count y = l.count y ∧
      (shuffleGo l i rng).1.length = l.length) := by
  intro i
  induction i with
  | zero => intro l rng y _; exact ⟨rfl, rfl⟩
  | succ j ih =>
    intro l rng y h
    rw [shuffleGo]
    have hk : rng.headD 0 % (j + 2) < l.length := by
      have : rng.headD 0 % (j + 2) < j + 2 := Nat.mod_lt _ (by omega)
      omega
    have hlen : (swapL l (j + 1) (rng.headD 0 % (j + 2)) default).length = l.length := by
      show (((l.set _ _).set _ _)).length = l.length
      simp
    obtain ⟨hc, hl⟩ := ih (swapL l (j + 1) (rng.headD 0 % (j + 2)) default) rng.tail y
      (by omega)
    refine ⟨?_, by omega⟩
    rw [hc, count_swapL l (j + 1) _ default y h hk]

theorem shuffle_count {α : Type} [DecidableEq α] [Inhabited α] (l : List α) (rng : Rng)
    (y : α) : (shuffle l rng).1.count y = l.count y := by
  rw [shuffle]
  rcases Nat.eq_zero_or_pos l.length with h0 | hpos
  · rw [h0]
    rfl
  · exact (count_shuffleGo (l.length - 1) l rng y (by omega)).1

theorem shuffle_mem {α : Type} [DecidableEq α] [Inhabited α] {l : List α} {rng : Rng}
    {y : α} : y ∈ (shuffle l rng).1 ↔ y ∈ l := by
  rw [← List.count_pos_iff, ← List.count_pos_iff, shuffle_count]

theorem shuffle_nodup {α : Type} [DecidableEq α] [Inhabited α] {l : List α} {rng : Rng}
    (h : l.Nodup) : (shuffle l rng).1.Nodup := by
  rw [List.nodup_iff_count_le_one]
  intro a
  rw [shuffle_count]
  exact List.nodup_iff_count_le_one.mp h a

/-! ### The backtracking filler yields a consistent full solution -/

theorem backtrackGo_nil (grid : List Char) (rng : Rng) :
    backtrackGo [] grid rng = (some grid, rng) := by
  rw [backtrackGo.eq_def]

theorem backtrackGo_cons (idx : Nat) (rest : List Nat) (grid : List Char) (rng : Rng) :
    backtrackGo (idx :: rest) grid rng =
      (if grid.getD idx BLANK ≠ BLANK then backtrackGo rest grid rng
      else
        tryDigits (shuffle DIGITS rng).1 idx rest grid (shuffle DIGITS rng).2) := by
  rw [backtrackGo.eq_def]

theorem tryDigits_nil (idx : Nat) (rest : List Nat) (grid : List Char) (rng : Rng) :
    tryDigits [] idx rest grid rng = (none, rng) := by
  rw [tryDigits.eq_def]

theorem tryDigits_cons (d : Char) (more : List Char) (idx : Nat) (rest : List Nat)
    (grid : List Char) (rng : Rng) :
    tryDigits (d :: more) idx rest grid rng =
      (if canPlace grid idx d then
        match backtrackGo rest (grid.set idx d) rng with
        | (some g, rng2) => (some g, rng2)
        | (none, rng2) => tryDigits more idx rest grid rng2
      else tryDigits more idx rest grid rng) := by
  rw [tryDigits.eq_def]

/-- Invariant of the filler grid: every cell is blank or a digit that does
not clash with any of its peers. -/
def GridOK (grid : List Char) : Prop :=
  grid.length = 81 ∧ ∀ i, i < 81 →
    grid.getD i BLANK = BLANK ∨
      (grid.getD i BLANK ∈ DIGITS ∧
        ∀ p ∈ peersOf i, grid.getD p BLANK ≠ grid.getD i BLANK)

theorem canPlace_spec {grid : List Char} {idx : Nat} {d : Char}
    (h : canPlace grid idx d = true) : ∀ p ∈ peersOf idx, grid.getD p BLANK ≠ d := by
  intro p hp
  have := List.all_eq_true.mp h p hp
  simpa using this

theorem gridOK_set {grid : List Char} {idx : Nat} {d : Char} (hok : GridOK grid)
    (hidx : idx < 81) (hd : d ∈ DIGITS) (hcp : canPlace grid idx d = true) :
    GridOK (grid.set idx d) := by
  refine ⟨by rw [List.length_set, hok.1], fun i hi => ?_⟩
  by_cases hieq : idx = i
  · subst hieq
    right
    have hget : (grid.set idx d).getD idx BLANK = d := by
      rw [List.getD_eq_getElem _ _ (by rw [List.length_set, hok.1]; omega)]
      exact List.getElem_set_self _
    rw [hget]
    refine ⟨hd, fun p hp => ?_⟩
    have hpne : p ≠ idx := (peers_facts hidx hp).2.1
    rw [getD_set_ne BLANK grid d (fun hh => hpne hh.symm)]
    exact canPlace_spec hcp p hp
  · have hget : (grid.set idx d).getD i BLANK = grid.getD i BLANK :=
      getD_set_ne BLANK grid d hieq
    rw [hget]
    rcases hok.2 i hi with hbl | ⟨hdig, hpeers⟩
    · exact Or.inl hbl
    · right
      refine ⟨hdig, fun p hp => ?_⟩
      by_cases hpidx : idx = p
      · subst hpidx
        have hget2 : (grid.set idx d).getD idx BLANK = d := by
          rw [List.getD_eq_getElem _ _ (by rw [List.length_set, hok.1]; omega)]
          exact List.getElem_set_self _
        rw [hget2]
        have hipeer : i ∈ peersOf idx := (peers_facts hi hp).2.2.2
        exact fun hh => (canPlace_spec hcp i hipeer) (hh ▸ rfl)
      · rw [getD_set_ne BLANK grid d hpidx]
        exact hpeers p hp

theorem backtrack_sound : ∀ (order : List Nat) (grid : List Char) (rng : Rng)
    (g : List Char) (rng2 : Rng), (∀ i ∈ order, i < 81) → GridOK grid →
    backtrackGo order grid rng = (some g, rng2) →
    GridOK g ∧ (∀ i, grid.getD i BLANK ≠ BLANK → g.getD i BLANK ≠ BLANK) ∧
      (∀ i ∈ order, g.getD i BLANK ≠ BLANK) := by
  intro order
  induction order with
  | nil =>
    intro grid rng g rng2 _ hok h
    rw [backtrackGo_nil] at h
    cases h
    exact ⟨hok, fun i hi => hi, fun i hi => absurd hi (List.not_mem_nil i)⟩
  | cons idx rest ih =>
    intro grid rng g rng2 hlt hok h
    have hidx : idx < 81 := hlt idx (List.mem_cons_self idx rest)
    rw [backtrackGo_cons] at h
    by_cases hblank : grid.getD idx BLANK ≠ BLANK
    · rw [if_pos hblank] at h
      obtain ⟨hg, hpres, hrest⟩ := ih grid rng g rng2
        (fun i hi => hlt i (List.mem_cons_of_mem idx hi)) hok h
      refine ⟨hg, hpres, fun i hi => ?_⟩
      rcases List.mem_cons.mp hi with rfl | hir
      · exact hpres i hblank
      · exact hrest i hir
    · rw [if_neg hblank] at h
      have hds : ∀ d ∈ (shuffle DIGITS rng).1, d ∈ DIGITS := fun d hd =>
        shuffle_mem.mp hd
      have htd : ∀ (ds : List Char) (rng0 : Rng), (∀ d ∈ ds, d ∈ DIGITS) →
          tryDigits ds idx rest grid rng0 = (some g, rng2) →
          GridOK g ∧ (∀ i, grid.getD i BLANK ≠ BLANK → g.getD i BLANK ≠ BLANK) ∧
            (∀ i ∈ rest, g.getD i BLANK ≠ BLANK) ∧ g.getD idx BLANK ≠ BLANK := by
        intro ds
        induction ds with
        | nil =>
          intro rng0 _ htd
          rw [tryDigits_nil] at htd
          exact absurd htd (by simp)
        | cons d more ihd =>
          intro rng0 hdin htd
          rw [tryDigits_cons] at htd
          by_cases hcp : canPlace grid idx d = true
          · rw [if_pos hcp] at htd
            cases hbt : backtrackGo rest (grid.set idx d) rng0 with
            | mk res rng3 =>
              cases res with
              | some g2 =>
                rw [hbt] at htd
                simp only [Prod.mk.injEq, Option.some.injEq] at htd
                obtain ⟨rfl, rfl⟩ := htd
                have hdD : d ∈ DIGITS := hdin d (List.mem_cons_self d more)
                have hok2 : GridOK (grid.set idx d) := gridOK_set hok hidx hdD hcp
                obtain ⟨hg, hpres, hrest⟩ := ih (grid.set idx d) rng0 g2 rng3
                  (fun i hi => hlt i (List.mem_cons_of_mem idx hi)) hok2 hbt
                have hdne : d ≠ BLANK := by
                  intro hEq
                  subst hEq
                  exact absurd hdD (by decide)
                have hsetidx : (grid.set idx d).getD idx BLANK = d := by
                  rw [List.getD_eq_getElem _ _ (by rw [List.length_set, hok.1]; omega)]
                  exact List.getElem_set_self _
                refine ⟨hg, fun i hi => ?_, hrest, ?_⟩
                · by_cases hieq : idx = i
                  · subst hieq
                    exact absurd hi hblank
                  · exact hpres i (by rw [getD_set_ne BLANK grid d hieq]; exact hi)
                · exact hpres idx (by rw [hsetidx]; exact hdne)
              | none =>
                rw [hbt] at htd
                simp only [] at htd
                exact ihd rng3 (fun x hx => hdin x (List.mem_cons_of_mem d hx)) htd
          · rw [if_neg hcp] at htd
            exact ihd rng0 (fun x hx => hdin x (List.mem_cons_of_mem d hx)) htd
      obtain ⟨hg, hpres, hrest, hidxne⟩ := htd (shuffle DIGITS rng).1
        (shuffle DIGITS rng).2 hds h
      refine ⟨hg, hpres, fun i hi => ?_⟩
      rcases List.mem_cons.mp hi with rfl | hir
      · exact hidxne
      · exact hrest i hir

theorem getD_replicate_blank (i : Nat) : (List.replicate 81 BLANK).getD i BLANK = BLANK := by
  by_cases hi : i < 81
  · rw [List.getD_eq_getElem _ _ (by simpa using hi)]
    exact List.getElem_replicate ..
  · exact List.getD_eq_default _ _ (by simpa using hi)

/-- A successful `_generate_full_solution` run is a consistent full board. -/
theorem generate_full_solution_sound {rng rng2 : Rng} {sol : List Char}
    (h : generate_full_solution rng = (some sol, rng2)) : ConsistentSol sol := by
  rw [generate_full_solution] at h
  have horder : ∀ i ∈ (shuffle (List.range NR_SQUARES) rng).1, i < 81 := by
    intro i hi
    have := shuffle_mem.mp hi
    have := List.mem_range.mp this
    simpa [NR_SQUARES] using this
  have hok0 : GridOK (List.replicate NR_SQUARES BLANK) := by
    refine ⟨by simp [NR_SQUARES], fun i hi => Or.inl ?_⟩
    exact getD_replicate_blank i
  obtain ⟨hg, _, hfull⟩ := backtrack_sound _ _ _ sol _ horder hok0 h
  have hcover : ∀ i, i < 81 → sol.getD i BLANK ≠ BLANK := by
    intro i hi
    refine hfull i ?_
    rw [shuffle_mem]
    exact List.mem_range.mpr (by simpa [NR_SQUARES] using hi)
  have hdig : ∀ i, i < 81 → cellOf sol i ∈ DIGITS ∧
      ∀ p ∈ peersOf i, sol.getD p BLANK ≠ sol.getD i BLANK := by
    intro i hi
    rcases hg.2 i hi with hbl | hd
    · exact absurd hbl (hcover i hi)
    · exact hd
  refine ⟨hg.1, fun i hi => (hdig i hi).1, fun u hu => ?_⟩
  obtain ⟨hlen9, hult, hund, hmates⟩ := unit_facts hu
  rw [List.Nodup, List.pairwise_map]
  refine List.Pairwise.imp_of_mem ?_ hund
  intro a b ha hb hab
  have hbpeer : b ∈ peersOf a := hmates a ha b hb hab
  have := (hdig a (hult a ha)).2 b hbpeer
  exact fun hh => this (by rw [cellOf, cellOf] at hh; rw [hh])

/-! ### Given-count bookkeeping for the generator -/

theorem countGivens_add_count (p : List Char) :
    countGivens p + p.count BLANK = p.length := by
  induction p with
  | nil => rfl
  | cons a t ih =>
    rw [countGivens, List.filter_cons, List.count_cons, List.length_cons]
    rw [countGivens] at ih
    by_cases ha : a = BLANK
    · rw [if_neg (by simp [ha]), if_pos (by simp [ha])]
      omega
    · rw [if_pos (by simp [ha]),
        if_neg (by simp only [beq_iff_eq]; exact ha)]
      rw [List.length_cons]
      omega

theorem countGivens_le (p : List Char) : countGivens p ≤ p.length :=
  List.length_filter_le _ _

theorem countGivens_set_blank {p : List Char} {idx : Nat} (hlt : idx < p.length)
    (hnb : p.getD idx BLANK ≠ BLANK) :
    countGivens (p.set idx BLANK) = countGivens p - 1 ∧ 1 ≤ countGivens p := by
  have h1 := countGivens_add_count p
  have h2 := countGivens_add_count (p.set idx BLANK)
  have h3 := count_set_lt p idx BLANK BLANK BLANK hlt
  rw [if_neg hnb, if_pos rfl] at h3
  rw [List.length_set] at h2
  have hcl : p.count BLANK ≤ p.length := List.count_le_length _ _
  omega

theorem countGivens_sol {s : List Char} (hs : ConsistentSol s) : countGivens s = 81 := by
  rw [countGivens, List.filter_eq_self.mpr, hs.1]
  intro ch hch
  have hd := mem_digits_of_mem_sol hs hch
  simp only [decide_eq_true_eq]
  intro hcontra
  rw [hcontra] at hd
  exact absurd hd (by decide)

theorem sol_nonblank {s : List Char} (hs : ConsistentSol s) {i : Nat} (hi : i < 81) :
    s.getD i BLANK ≠ BLANK := by
  have hd := hs.2.1 i hi
  rw [cellOf] at hd
  intro h
  rw [h] at hd
  exact absurd hd (by decide)

/-! ### The removal loop: uniqueness preservation and given-count bounds -/

theorem has_unique_solution_count {b : List Char} (h : has_unique_solution b = true) :
    count_solutions b 2 = .ok 1 := by
  rw [has_unique_solution] at h
  cases hc : count_solutions b 2 with
  | error e =>
    rw [hc] at h
    simp only [] at h
    exact Bool.noConfusion h
  | ok n =>
    rw [hc] at h
    simp only [decide_eq_true_eq] at h
    rw [h]

theorem removalLoop_cons (idx : Nat) (rest : List Nat) (p : List Char) (g : Nat)
    (tgt : Int) (uniq : Bool) :
    removalLoop (idx :: rest) p g tgt uniq =
      if (g : Int) ≤ tgt then p
      else if (if uniq then has_unique_solution (p.set idx BLANK) else true)
        then removalLoop rest (p.set idx BLANK) (g - 1) tgt uniq
        else removalLoop rest p g tgt uniq := rfl

/-- With `unique = true`, every accepted removal re-established
`_has_unique_solution`, so the loop's result still satisfies it. -/
theorem removalLoop_uniq : ∀ (idxs : List Nat) (p : List Char) (g : Nat) (tgt : Int),
    has_unique_solution p = true →
    has_unique_solution (removalLoop idxs p g tgt true) = true := by
  intro idxs
  induction idxs with
  | nil => intro p g tgt h; rw [removalLoop]; exact h
  | cons idx rest ih =>
    intro p g tgt h
    rw [removalLoop_cons]
    by_cases hg : (g : Int) ≤ tgt
    · rw [if_pos hg]; exact h
    · rw [if_neg hg]
      rw [show (if (true = true) then has_unique_solution (p.set idx BLANK) else true)
          = has_unique_solution (p.set idx BLANK) from if_pos rfl]
      by_cases hu : has_unique_solution (p.set idx BLANK) = true
      · rw [if_pos hu]
        exact ih _ _ _ hu
      · rw [if_neg hu]
        exact ih _ _ _ h

/-- The removal loop never drops below 17 givens (each removal requires the
current count to strictly exceed the clamped target, itself at least 17) and
never changes the board length. -/
theorem removalLoop_invariant : ∀ (idxs : List Nat) (p : List Char) (g : Nat)
    (tgt : Int) (uniq : Bool), idxs.Nodup →
    (∀ i ∈ idxs, i < p.length ∧ p.getD i BLANK ≠ BLANK) →
    g = countGivens p → 17 ≤ g → (17 : Int) ≤ tgt →
    (removalLoop idxs p g tgt uniq).length = p.length ∧
      17 ≤ countGivens (removalLoop idxs p g tgt uniq) := by
  intro idxs
  induction idxs with
  | nil =>
    intro p g tgt uniq _ _ hgc h17 _
    rw [removalLoop]
    exact ⟨rfl, by omega⟩
  | cons idx rest ih =>
    intro p g tgt uniq hnd hmem hgc h17 htgt
    rw [removalLoop_cons]
    by_cases hg : (g : Int) ≤ tgt
    · rw [if_pos hg]
      exact ⟨rfl, by omega⟩
    · rw [if_neg hg]
      have hidx := hmem idx (List.mem_cons_self idx rest)
      obtain ⟨hset, hone⟩ := countGivens_set_blank hidx.1 hidx.2
      have hnd2 := List.nodup_cons.mp hnd
      have hrest : ∀ i ∈ rest, i < (p.set idx BLANK).length ∧
          (p.set idx BLANK).getD i BLANK ≠ BLANK := by
        intro i hi
        have hip := hmem i (List.mem_cons_of_mem idx hi)
        refine ⟨by rw [List.length_set]; exact hip.1, ?_⟩
        rw [getD_set_ne BLANK p BLANK (fun he => hnd2.1 (by rw [he]; exact hi))]
        exact hip.2
      by_cases hu : (if uniq then has_unique_solution (p.set idx BLANK) else true) = true
      · rw [if_pos hu]
        have hres := ih (p.set idx BLANK) (g - 1) tgt uniq hnd2.2 hrest (by omega)
          (by omega) htgt
        rw [List.length_set] at hres
        exact hres
      · rw [if_neg hu]
        exact ih p g tgt uniq hnd2.2
          (fun i hi => hmem i (List.mem_cons_of_mem idx hi)) hgc h17 htgt

/-- The fallback masking loop satisfies the same given-count bounds. -/
theorem fallbackGo_invariant : ∀ (idxs : List Nat) (p : List Char) (g : Nat)
    (tgt : Int), idxs.Nodup →
    (∀ i ∈ idxs, i < p.length ∧ p.getD i BLANK ≠ BLANK) →
    g = countGivens p → 17 ≤ g → (17 : Int) ≤ tgt →
    (fallbackGo idxs p g tgt).length = p.length ∧
      17 ≤ countGivens (fallbackGo idxs p g tgt) := by
  intro idxs
  induction idxs with
  | nil =>
    intro p g tgt _ _ hgc h17 _
    rw [fallbackGo]
    exact ⟨rfl, by omega⟩
  | cons idx rest ih =>
    intro p g tgt hnd hmem hgc h17 htgt
    rw [fallbackGo]
    by_cases hg : (g : Int) ≤ tgt
    · rw [if_pos hg]
      exact ⟨rfl, by omega⟩
    · rw [if_neg hg]
      have hidx := hmem idx (List.mem_cons_self idx rest)
      obtain ⟨hset, hone⟩ := countGivens_set_blank hidx.1 hidx.2
      have hnd2 := List.nodup_cons.mp hnd
      have hrest : ∀ i ∈ rest, i < (p.set idx BLANK).length ∧
          (p.set idx BLANK).getD i BLANK ≠ BLANK := by
        intro i hi
        have hip := hmem i (List.mem_cons_of_mem idx hi)
        refine ⟨by rw [List.length_set]; exact hip.1, ?_⟩
        rw [getD_set_ne BLANK p BLANK (fun he => hnd2.1 (by rw [he]; exact hi))]
        exact hip.2
      have hres := ih (p.set idx BLANK) (g - 1) tgt hnd2.2 hrest (by omega)
        (by omega) htgt
      rw [List.length_set] at hres
      exact hres

/-- A board with a counted-unique solution cannot make `solve` return
`false`: the search must succeed. -/
theorem solve_none_not_unique {b : List Char} (hsolve : solve b false = .ok none)
    (hcount : count_solutions b 2 = .ok 1) : False := by
  rw [solve] at hsolve
  cases hv : validate_board b with
  | some e => rw [hv] at hsolve; exact Except.noConfusion hsolve
  | none =>
    rw [hv] at hsolve
    simp only [] at hsolve
    by_cases hgiv : (b.filter fun ch => DIGITS.contains ch).length < MIN_GIVENS
    · rw [if_pos hgiv] at hsolve
      exact Except.noConfusion hsolve
    · rw [if_neg hgiv] at hsolve
      rw [count_solutions, hv] at hcount
      simp only [] at hcount
      cases hgc : get_candidates_map b with
      | error e =>
        rw [hgc] at hsolve
        exact Except.noConfusion hsolve
      | ok copt =>
        rw [hgc] at hsolve hcount
        simp only [] at hsolve hcount
        cases copt with
        | none =>
          simp only [Except.ok.injEq] at hcount
          exact absurd hcount (by omega)
        | some c =>
          simp only [Except.ok.injEq] at hcount
          obtain ⟨m, hm⟩ := searchCount_progress SFUEL c 0 2 (by omega)
          rw [hm] at hsolve
          simp only [] at hsolve
          exact Option.noConfusion (Except.ok.inj hsolve)

/-- The clamp at the top of `generate` always lands in `[17, 82]`
(`NR_SQUARES + 1 = 82`, not `81`). -/
theorem generateTarget_bounds (d : Difficulty) :
    (17 : Int) ≤ generateTarget d ∧ generateTarget d ≤ 82 := by
  rw [generateTarget.eq_def]
  simp only []
  rw [force_range]
  have h1 : ((MIN_GIVENS : Nat) : Int) = 17 := rfl
  have h2 : ((NR_SQUARES : Nat) : Int) + 1 = 82 := rfl
  split_ifs <;> omega

/-! ### The string/grid round trip -/

theorem stringToGridGo_nil (i : Nat) (curRow : List Char) (rows : List (List Char)) :
    stringToGridGo i [] curRow rows = rows := rfl

theorem stringToGridGo_cons (i : Nat) (ch : Char) (more curRow : List Char)
    (rows : List (List Char)) :
    stringToGridGo i (ch :: more) curRow rows =
      if i % 9 = 8 then stringToGridGo (i + 1) more [] (rows ++ [curRow ++ [ch]])
      else stringToGridGo (i + 1) more (curRow ++ [ch]) rows := rfl

/-- Consuming exactly one full row's worth of characters emits one row. -/
theorem stringToGridGo_row : ∀ (xs curRow : List Char), xs ≠ [] →
    xs.length + curRow.length = 9 →
    ∀ (i n : Nat) (rest : List Char) (rows : List (List Char)),
    i = 9 * n + curRow.length →
    stringToGridGo i (xs ++ rest) curRow rows =
      stringToGridGo (9 * (n + 1)) rest [] (rows ++ [curRow ++ xs]) := by
  intro xs
  induction xs with
  | nil => intro curRow hne _; exact absurd rfl hne
  | cons ch more ih =>
    intro curRow _ hlen i n rest rows hi
    rw [List.cons_append, stringToGridGo_cons]
    cases more with
    | nil =>
      have h8 : curRow.length = 8 := by
        rw [List.length_cons, List.length_nil] at hlen; omega
      rw [if_pos (by omega)]
      have h9 : i + 1 = 9 * (n + 1) := by omega
      rw [h9, List.nil_append]
    | cons ch2 rest2 =>
      have hlt : curRow.length < 8 := by
        rw [List.length_cons, List.length_cons] at hlen; omega
      rw [if_neg (by omega)]
      rw [ih (curRow ++ [ch]) (by simp) (by simp at hlen ⊢; omega)
        (i + 1) n rest rows (by simp; omega)]
      rw [List.append_assoc, List.singleton_append]

/-- The rows accumulated by `board_string_to_grid`, as take/drop chunks. -/
def chunkRows : Nat → List Char → List (List Char)
  | 0, _ => []
  | k + 1, rest => rest.take 9 :: chunkRows k (rest.drop 9)

theorem stringToGridGo_chunks : ∀ (k : Nat) (rest : List Char) (n : Nat)
    (rows : List (List Char)), rest.length = 9 * k →
    stringToGridGo (9 * n) rest [] rows = rows ++ chunkRows k rest := by
  intro k
  induction k with
  | zero =>
    intro rest n rows hlen
    have : rest = [] := List.eq_nil_of_length_eq_zero (by omega)
    subst this
    rw [stringToGridGo_nil, chunkRows]
    simp
  | succ k ih =>
    intro rest n rows hlen
    have hrest : rest.take 9 ++ rest.drop 9 = rest := List.take_append_drop 9 rest
    have htk : (rest.take 9).length = 9 := by rw [List.length_take]; omega
    conv_lhs => rw [← hrest]
    rw [stringToGridGo_row (rest.take 9) [] (by intro h; rw [h] at htk; simp at htk)
      (by rw [htk]; rfl) (9 * n) n (rest.drop 9) rows (by rfl)]
    rw [ih (rest.drop 9) (n + 1) (rows ++ [[] ++ rest.take 9])
      (by rw [List.length_drop]; omega)]
    rw [chunkRows, List.nil_append, List.append_assoc, List.singleton_append]

theorem chunkRows_getD : ∀ (k : Nat) (rest : List Char) (r : Nat), r < k →
    (chunkRows k rest).getD r [] = (rest.drop (9 * r)).take 9 := by
  intro k
  induction k with
  | zero => intro rest r hr; omega
  | succ k ih =>
    intro rest r hr
    cases r with
    | zero => rw [chunkRows]; rfl
    | succ r =>
      rw [chunkRows]
      have hd : ((rest.take 9 :: chunkRows k (rest.drop 9)).getD (r + 1) []) =
          (chunkRows k (rest.drop 9)).getD r [] := rfl
      rw [hd, ih (rest.drop 9) r (by omega)]
      rw [List.drop_drop]
      have h9 : 9 + 9 * r = 9 * (r + 1) := by omega
      rw [h9]

theorem getD_drop_take {b : List Char} {r c : Nat} (hc : c < 9)
    (hlt : 9 * r + c < b.length) :
    ((b.drop (9 * r)).take 9).getD c BLANK = b.getD (9 * r + c) BLANK := by
  have hlt2 : c < ((b.drop (9 * r)).take 9).length := by
    rw [List.length_take, List.length_drop]; omega
  have hlt3 : c < (b.drop (9 * r)).length := by rw [List.length_drop]; omega
  rw [List.getD_eq_getElem _ _ hlt2, List.getD_eq_getElem _ _ hlt]
  rw [List.getElem_take]
  rw [List.getElem_drop]

theorem flatten_range_mul : ∀ (k : Nat) (f : Nat → Char),
    ((List.range k).map (fun r => (List.range 9).map (fun c => f (9 * r + c)))).flatten
      = (List.range (9 * k)).map f := by
  intro k
  induction k with
  | zero => intro f; rfl
  | succ k ih =>
    intro f
    rw [show List.range (k + 1) = List.range k ++ [k] from List.range_succ k]
    rw [List.map_append, List.flatten_append, ih f]
    have h9 : 9 * (k + 1) = 9 * k + 9 := by omega
    rw [h9, List.range_add, List.map_append, List.map_map]
    have hmap : (List.range 9).map (f ∘ (fun j => 9 * k + j)) =
        (List.range 9).map (fun c => f (9 * k + c)) :=
      List.map_congr_left (fun c _ => rfl)
    rw [hmap]
    simp

/-- `board_string_to_grid` on an 81-character board returns the nine
consecutive 9-character rows. -/
theorem board_string_to_grid_eq {b : List Char} (hb81 : b.length = 81) :
    board_string_to_grid b = chunkRows 9 b := by
  rw [board_string_to_grid]
  have h := stringToGridGo_chunks 9 b 0 [] (by omega)
  exact h

theorem grid_round_trip_core {b : List Char} (hb81 : b.length = 81) :
    board_grid_to_string (board_string_to_grid b) = b := by
  rw [board_string_to_grid_eq hb81, board_grid_to_string]
  have hrow : ∀ r, r < 9 →
      (List.range 9).map (fun c => ((chunkRows 9 b).getD r []).getD c BLANK)
        = (List.range 9).map (fun c => b.getD (9 * r + c) BLANK) := by
    intro r hr
    refine List.map_congr_left (fun c hc => ?_)
    have hc9 : c < 9 := List.mem_range.mp hc
    rw [chunkRows_getD 9 b r hr, getD_drop_take hc9 (by omega)]
  have houter : (List.range 9).map (fun r =>
        (List.range 9).map (fun c => ((chunkRows 9 b).getD r []).getD c BLANK))
      = (List.range 9).map (fun r =>
        (List.range 9).map (fun c => b.getD (9 * r + c) BLANK)) :=
    List.map_congr_left (fun r hr => hrow r (List.mem_range.mp hr))
  rw [houter, flatten_range_mul 9 (fun i => b.getD i BLANK)]
  have hm := map_getD_self b
  rw [hb81] at hm
  exact hm

/-! ### Concrete boards and maps used by the claim witnesses -/

/-- A candidate map whose first cell is already empty. -/
def cEmpty : CandMap := [] :: List.replicate 80 DIGITS

/-- A candidate map whose first cell holds exactly the digit 5. -/
def cOne : CandMap := ['5'] :: List.replicate 80 DIGITS

/-- A contradictory map: first cell empty, every other cell a singleton. -/
def cBad : CandMap := [] :: List.replicate 80 ['1']

/-- A concrete fully solved board. -/
def sol0 : List Char :=
  "534678912672195348198342567859761423426853791713924856961537284287419635345286179".toList

/-! ### The claims -/

/-- Claim C1: for every difficulty argument and every outcome of the internal
random shuffles, if `generate` with `unique = true` returns a board `p` then
`count_solutions p 2 = 1`: the board has exactly one solution. -/
theorem C1_generate_unique_board_has_one_solution (rng : Rng) (d : Difficulty) :
    match generate rng d true with
    | .ok p => count_solutions p 2 = .ok 1
    | .error _ => True := by
  rcases hfs : generate_full_solution rng with ⟨os, rng2⟩
  cases os with
  | none =>
    rw [generate.eq_def]
    simp only []
    rw [hfs]
    exact trivial
  | some solution =>
    have hsol := generate_full_solution_sound hfs
    have huniq := removalLoop_uniq (shuffle (List.range NR_SQUARES) rng2).1 solution
      (countGivens solution) (generateTarget d) (has_unique_solution_solved hsol)
    have hcount := has_unique_solution_count huniq
    rw [generate.eq_def]
    simp only []
    rw [hfs]
    simp only []
    cases hsv : solve (removalLoop (shuffle (List.range NR_SQUARES) rng2).1 solution
        (countGivens solution) (generateTarget d) true) false with
    | error e => exact trivial
    | ok o =>
      cases o with
      | some r => exact hcount
      | none => exact (solve_none_not_unique hsv hcount).elim

/-- Claim C2 counterexample: a raw difficulty of 100 is clamped to 82
(`NR_SQUARES + 1`), which lies outside the claimed inclusive range
`[17, 81]`. -/
theorem C2_counterexample_target_82 :
    generateTarget (.num 100) = 82 ∧ ¬ generateTarget (.num 100) ≤ 81 := by
  decide

/-- Claim C2 (amended): the target given count is clamped to the inclusive
range `[17, 82]` (the upper bound of `_force_range` is `NR_SQUARES + 1 = 82`,
not `81`), and any board `generate` actually returns has between 17
(`MIN_GIVENS`) and 81 givens. -/
theorem C2_generate_target_and_givens_bounds :
    (∀ d : Difficulty, (17 : Int) ≤ generateTarget d ∧ generateTarget d ≤ 82) ∧
    ∀ (rng : Rng) (d : Difficulty) (uniq : Bool),
      match generate rng d uniq with
      | .ok p => MIN_GIVENS ≤ countGivens p ∧ countGivens p ≤ 81
      | .error _ => True := by
  refine ⟨generateTarget_bounds, ?_⟩
  intro rng d uniq
  rcases hfs : generate_full_solution rng with ⟨os, rng2⟩
  cases os with
  | none =>
    rw [generate.eq_def]
    simp only []
    rw [hfs]
    exact trivial
  | some solution =>
    have hsol := generate_full_solution_sound hfs
    have hlen81 : solution.length = 81 := hsol.1
    have hcg : countGivens solution = 81 := countGivens_sol hsol
    have htgt := (generateTarget_bounds d).1
    have h17 : MIN_GIVENS = 17 := rfl
    have hmem : ∀ (rs : Rng), ∀ i ∈ (shuffle (List.range NR_SQUARES) rs).1,
        i < solution.length ∧ solution.getD i BLANK ≠ BLANK := by
      intro rs i hi
      have hir : i < 81 := by
        have := List.mem_range.mp (shuffle_mem.mp hi)
        simpa [NR_SQUARES] using this
      exact ⟨by omega, sol_nonblank hsol hir⟩
    obtain ⟨hlenr, hgivr⟩ := removalLoop_invariant
      (shuffle (List.range NR_SQUARES) rng2).1 solution (countGivens solution)
      (generateTarget d) uniq (shuffle_nodup (List.nodup_range _)) (hmem rng2) rfl
      (by omega) htgt
    rw [generate.eq_def]
    simp only []
    rw [hfs]
    simp only []
    cases hsv : solve (removalLoop (shuffle (List.range NR_SQUARES) rng2).1 solution
        (countGivens solution) (generateTarget d) uniq) false with
    | error e => exact trivial
    | ok o =>
      cases o with
      | some r =>
        have hle := countGivens_le (removalLoop
          (shuffle (List.range NR_SQUARES) rng2).1 solution (countGivens solution)
          (generateTarget d) uniq)
        rw [hlenr, hlen81] at hle
        exact ⟨by omega, hle⟩
      | none =>
        obtain ⟨hlf, hgf⟩ := fallbackGo_invariant
          (shuffle (List.range NR_SQUARES)
            (shuffle (List.range NR_SQUARES) rng2).2).1 solution
          (countGivens solution) (generateTarget d)
          (shuffle_nodup (List.nodup_range _))
          (hmem (shuffle (List.range NR_SQUARES) rng2).2) rfl (by omega) htgt
        have hle := countGivens_le (fallbackGo
          (shuffle (List.range NR_SQUARES)
            (shuffle (List.range NR_SQUARES) rng2).2).1 solution
          (countGivens solution) (generateTarget d))
        rw [hlf, hlen81] at hle
        exact ⟨by omega, hle⟩

/-- Claim C3: on a structurally valid board, `solve` fails with
`tooFewGivens` exactly when fewer than 17 cells are non-blank, and never
raises that error with 17 or more givens. -/
theorem C3_solve_min_givens (b : List Char) (rev : Bool)
    (hv : validate_board b = none) :
    (countGivens b < 17 → solve b rev = .error .tooFewGivens) ∧
    (17 ≤ countGivens b → solve b rev ≠ .error .tooFewGivens) := by
  have hvc := (validate_board_none_iff b).mp hv
  have heq : (b.filter fun ch => DIGITS.contains ch).length = countGivens b := by
    rw [countGivens]
    have hfc : ∀ ch ∈ b, (DIGITS.contains ch) = decide (ch ≠ BLANK) := by
      intro ch hch
      have hvch := hvc.2 ch hch
      rw [validChar] at hvch
      by_cases hbl : ch = BLANK
      · subst hbl
        decide
      · have hcont : DIGITS.contains ch = true := by
          rcases Bool.or_eq_true_iff.mp hvch with h | h
          · exact h
          · exact absurd (by simpa using h) hbl
        rw [hcont]
        simp [hbl]
    rw [List.filter_congr hfc]
  have h17 : MIN_GIVENS = 17 := rfl
  constructor
  · intro hlt
    rw [solve, hv]
    simp only []
    rw [if_pos (by omega)]
  · intro hge hcon
    rw [solve, hv] at hcon
    simp only [] at hcon
    rw [if_neg (by omega)] at hcon
    rw [get_candidates_map, hv] at hcon
    simp only [] at hcon
    cases hsr : search SFUEL (assignGivens PFUEL b (List.replicate NR_SQUARES DIGITS)
        (List.range NR_SQUARES)) rev with
    | some m =>
      rw [hsr] at hcon
      exact Except.noConfusion hcon
    | none =>
      rw [hsr] at hcon
      exact Except.noConfusion hcon

/-- Witness for claim C3: a structurally valid 16-given board is rejected
with `tooFewGivens`. -/
theorem C3_witness :
    solve (List.replicate 16 '1' ++ List.replicate 65 BLANK) false
      = .error .tooFewGivens :=
  (C3_solve_min_givens (List.replicate 16 '1' ++ List.replicate 65 BLANK) false
    (by decide)).1 (by decide)

/-- Claim C4 counterexample: the empty board is rejected with the dedicated
`emptyBoard` error (`"Empty board"`), which is distinct from the
`invalidSize` error the claim predicts for every board of length other
than 81. -/
theorem C4_counterexample_empty_board :
    validate_board [] = some .emptyBoard ∧ SErr.emptyBoard ≠ SErr.invalidSize :=
  ⟨rfl, by decide⟩

/-- Claim C4 (amended): `validate_board` succeeds iff the board has length 81
and every symbol is a digit or the blank marker; the empty board fails with
`emptyBoard`, any other board of length other than 81 fails with
`invalidSize`, and an `invalidChar` failure reports the first offending
index and symbol; conversely a length-81 board holding an invalid symbol is
rejected with some `invalidChar`. -/
theorem C4_validate_board_spec (b : List Char) :
    (validate_board b = none ↔ b.length = 81 ∧ ∀ ch ∈ b, validChar ch = true) ∧
    (b = [] → validate_board b = some .emptyBoard) ∧
    (b ≠ [] → b.length ≠ 81 → validate_board b = some .invalidSize) ∧
    (∀ j ch, validate_board b = some (.invalidChar j ch) →
      j < b.length ∧ b.getD j BLANK = ch ∧ validChar ch = false ∧
        ∀ k, k < j → validChar (b.getD k BLANK) = true) ∧
    (b.length = 81 → (∃ ch ∈ b, validChar ch = false) →
      ∃ j ch, validate_board b = some (.invalidChar j ch)) := by
  refine ⟨validate_board_none_iff b, ?_, ?_, ?_, ?_⟩
  · intro h
    subst h
    rfl
  · intro hne hlen
    rw [validate_board]
    rw [if_neg (by simp only [List.isEmpty_iff]; exact hne)]
    rw [if_pos (show b.length ≠ NR_SQUARES from hlen)]
  · exact fun j ch h => validate_board_invalidChar h
  · intro hlen hex
    obtain ⟨ch0, hch0, hbad⟩ := hex
    rcases validate_board_cases b with hn | ⟨he, _⟩ | ⟨_, hl, _⟩ | ⟨j, ch, hj⟩
    · have hall := ((validate_board_none_iff b).mp hn).2 ch0 hch0
      rw [hall] at hbad
      exact absurd hbad (by simp)
    · rw [he] at hlen
      simp at hlen
    · exact absurd (by rw [hlen]; rfl) hl
    · exact ⟨j, ch, hj⟩

/-- Witness for claim C4: a one-character board is rejected as `invalidSize`,
and a length-81 board with a stray symbol is rejected with some
`invalidChar`. -/
theorem C4_witness :
    validate_board ['1'] = some .invalidSize ∧
      ∃ j ch, validate_board (List.replicate 80 '1' ++ ['x'])
        = some (.invalidChar j ch) :=
  ⟨(C4_validate_board_spec ['1']).2.2.1 (by decide) (by decide),
   (C4_validate_board_spec (List.replicate 80 '1' ++ ['x'])).2.2.2.2 (by decide)
     ⟨'x', by decide, by decide⟩⟩

/-- Claim C5 counterexample: on a cell whose candidate set is already empty,
`_assign` has no values to eliminate, succeeds, and leaves the cell empty
rather than `['5']` - refuting the unconditional "succeeds only with the
cell at exactly the assigned digit" reading. -/
theorem C5_counterexample_empty_cell :
    assign PFUEL cEmpty 0 '5' = some cEmpty ∧ getC cEmpty 0 ≠ ['5'] := by
  constructor
  · rw [assign_eq, show (getC cEmpty 0).erase '5' = [] from rfl, assignGo_nil]
  · decide

/-- Claim C5 (amended): if the cell still has at least one candidate, a
successful `_assign` pins it to exactly the assigned digit; and `_eliminate`
signals a contradiction whenever removing a present value would empty the
cell. -/
theorem C5_assign_singleton (f : Nat) (c : CandMap) (sq : Nat) (d : Char) :
    (∀ m, getC c sq ≠ [] → assign f c sq d = some m → getC m sq = [d]) ∧
    (d ∈ getC c sq → (getC c sq).erase d = [] → eliminate f c sq d = none) :=
  ⟨fun _ hne h => assign_sets_singleton hne h,
   fun hv he => eliminate_empties_none hv he⟩

/-- Witness for claim C5: assigning 5 to a cell that holds exactly 5
succeeds and pins the cell, and eliminating that last 5 is a
contradiction. -/
theorem C5_witness :
    getC cOne 0 = ['5'] ∧ eliminate 7 cOne 0 '5' = none := by
  refine ⟨(C5_assign_singleton 7 cOne 0 '5').1 cOne (by decide) ?_,
    (C5_assign_singleton 7 cOne 0 '5').2 (by decide) (by decide)⟩
  rw [assign_eq, show (getC cOne 0).erase '5' = [] from rfl, assignGo_nil]

/-- Claim C6: eliminating a value already absent from the cell's candidate
set is a no-op: `_eliminate` succeeds and returns the very same map, leaving
every cell's candidate set unchanged. -/
theorem C6_eliminate_noop (f : Nat) (c : CandMap) (sq : Nat) (v : Char)
    (h : v ∉ getC c sq) : eliminate f c sq v = some c :=
  eliminate_no_op h

/-- Witness for claim C6: eliminating the blank marker (never a candidate)
from a full map returns the map unchanged. -/
theorem C6_witness :
    eliminate 5 (List.replicate 81 DIGITS) 0 BLANK
      = some (List.replicate 81 DIGITS) :=
  C6_eliminate_noop 5 (List.replicate 81 DIGITS) 0 BLANK (by decide)

/-- Claim C7 counterexample: a candidate map whose first cell is empty, yet
the solving search returns it as a solved map instead of failing - `_search`
has no defensive empty-set check, its `max_nr_candidates === 1` test treats
the map as solved. -/
theorem C7_counterexample_search_no_check :
    getC cBad 0 = [] ∧ search SFUEL (some cBad) false = some cBad := by
  refine ⟨rfl, ?_⟩
  rw [show SFUEL = 99 + 1 from rfl, search_some_succ, if_pos (by decide)]

/-- Claim C7 (amended): only the solution-counting search re-checks for an
empty candidate set (returning its count unchanged); the solving `_search`
lacks the defensive check and returns any map whose maximum candidate count
is 1 as solved, an empty cell notwithstanding. -/
theorem C7_empty_cell_checks :
    (∀ g c cnt lim,
      ((List.range NR_SQUARES).any fun sq => (getC c sq).length = 0) = true →
      searchCount (g + 1) c cnt lim = cnt) ∧
    (∀ g c rev, maxLen c = 1 → search (g + 1) (some c) rev = some c) := by
  constructor
  · intro g c cnt lim h
    rw [searchCount_succ, if_pos h]
  · intro g c rev h
    rw [search_some_succ, if_pos h]

/-- Witness for claim C7: on the empty-celled map the counting search
returns its count unchanged, while the solving search returns the map as
solved. -/
theorem C7_witness :
    searchCount 3 cBad 0 2 = 0 ∧ search 3 (some cBad) true = some cBad :=
  ⟨C7_empty_cell_checks.1 2 cBad 0 2 (by decide),
   C7_empty_cell_checks.2 2 cBad true (by decide)⟩

/-- Claim C8: converting a valid 81-character board to a 9x9 grid and back is
the identity. -/
theorem C8_round_trip (b : List Char) (hv : validate_board b = none) :
    board_grid_to_string (board_string_to_grid b) = b := by
  have hb81 : b.length = 81 := by
    have h := ((validate_board_none_iff b).mp hv).1
    simpa [NR_SQUARES] using h
  exact grid_round_trip_core hb81

/-- Witness for claim C8: the round trip on the all-blank board. -/
theorem C8_witness :
    board_grid_to_string (board_string_to_grid (List.replicate 81 BLANK))
      = List.replicate 81 BLANK :=
  C8_round_trip (List.replicate 81 BLANK) (by decide)

/-- Claim C9: `solve` on an already fully solved consistent board succeeds
and returns the same board unchanged. -/
theorem C9_solve_idempotent (s : List Char) (hs : ConsistentSol s) (rev : Bool) :
    solve s rev = .ok (some s) :=
  solve_solved hs rev

set_option maxHeartbeats 2000000 in
/-- Witness for claim C9: a concrete solved board is returned unchanged. -/
theorem C9_witness : solve sol0 false = .ok (some sol0) :=
  C9_solve_idempotent sol0 (by unfold ConsistentSol; decide) false

/-- Claim C10: `solve` is deterministic and never consults the random
source: with the entropy stream made explicit, runs from any two streams
agree and leave their streams untouched, in contrast to the randomized
`generate`. -/
theorem C10_solve_deterministic (rng1 rng2 : Rng) (b : List Char) (rev : Bool) :
    (solveR rng1 b rev).1 = (solveR rng2 b rev).1 ∧
      (solveR rng1 b rev).2 = rng1 ∧ (solveR rng2 b rev).2 = rng2 :=
  ⟨rfl, rfl, rfl⟩

end Sudoku
